import Mathlib

/-!
Verification of the Wine preloader (`loader/preloader.c`).

The C sources are shallowly embedded below.  Machine integers are modelled
as `Nat` with explicit `% 2^w` reductions where the C type forces a wrap;
C strings are `List Char` (the terminating NUL is implicit: reading at the
end of the list yields the terminator).  Partial or undefined behaviour
(out-of-bounds reads past a format string, pointer underflow) is modelled
with `Option`/`Except`.
-/

namespace Preloader

/-! ## Minimal formatting utilities (`wld_vsprintf` and friends) -/

/-- Table `hex_chars` from the source: the ASCII hex digit for a nibble. -/
def hex_chars (n : Nat) : Char :=
  (("0123456789abcdef".toList).getD n '0')

/-- One argument pulled from the `va_list`.  The preloader only ever passes
integers (`%x`, `%lx`, `%p`) or strings (`%s`). -/
inductive WldArg where
  | num (n : Nat)
  | str (s : List Char)
deriving DecidableEq

/-- Model of `va_arg(args, unsigned ...)`: pop one integer argument.
Popping past the end of the list, or popping a string as an integer, is
undefined behaviour in C; the model returns 0 there (never exercised by
the theorems below). -/
def popNum : List WldArg → Nat × List WldArg
  | [] => (0, [])
  | .num n :: rest => (n, rest)
  | .str _ :: rest => (0, rest)

/-- Model of `va_arg(args, char *)`: pop one string argument. -/
def popStr : List WldArg → List Char × List WldArg
  | [] => ([], [])
  | .str s :: rest => (s, rest)
  | .num _ :: rest => ([], rest)

/-- The digit loop of `wld_vsprintf`: for `i = 2*size-1 .. 0` emit
`hex_chars[(x >> (i*4)) & 0xf]`.  `w` is the number of digits
(8 for `unsigned int`, 16 for `unsigned long` on x86-64). -/
def toHexW (w : Nat) (x : Nat) : List Char :=
  ((List.range w).reverse).map (fun i => hex_chars ((x >>> (4 * i)) &&& 15))

/-- `wld_vsprintf` (preloader.c:717), translated clause by clause.

The format string is the list of characters before the NUL.  After a
conversion specifier is handled the code does `p++` and then falls through
to the unconditional `*str++ = *p++`, so the character right after the
specifier is copied verbatim.  When that character is the terminating NUL
itself, the C code copies the NUL into the buffer and then reads past the
end of the format string: that undefined behaviour is modelled as `none`.
A `%` directly followed by the NUL hits the explicit `if (*p == 0) break`.
An unrecognized specifier consumes no argument; the code skips it and
copies the following character verbatim. -/
def wld_vsprintf : List Char → List WldArg → Option (List Char)
  | [], _ => some []
  | ['%'], _ => some []
  | '%' :: 'x' :: [], _ => none
  | '%' :: 'x' :: c :: ps, args =>
      (wld_vsprintf ps (popNum args).2).map
        (fun t => toHexW 8 ((popNum args).1 % 4294967296) ++ c :: t)
  | '%' :: 'l' :: 'x' :: [], _ => none
  | '%' :: 'l' :: 'x' :: c :: ps, args =>
      (wld_vsprintf ps (popNum args).2).map
        (fun t => toHexW 16 ((popNum args).1 % 18446744073709551616) ++ c :: t)
  | '%' :: 'p' :: [], _ => none
  | '%' :: 'p' :: c :: ps, args =>
      (wld_vsprintf ps (popNum args).2).map
        (fun t => toHexW 16 ((popNum args).1 % 18446744073709551616) ++ c :: t)
  | '%' :: 's' :: [], _ => none
  | '%' :: 's' :: c :: ps, args =>
      (wld_vsprintf ps (popStr args).2).map
        (fun t => (popStr args).1 ++ c :: t)
  | '%' :: _ :: [], _ => none
  | '%' :: _ :: c :: ps, args =>
      (wld_vsprintf ps args).map (fun t => c :: t)
  | c :: ps, args =>
      (wld_vsprintf ps args).map (fun t => c :: t)

/-- The four conversion specifiers understood by `wld_vsprintf`. -/
inductive ConvSpec where
  | cx
  | clx
  | cp
  | cs
deriving DecidableEq

/-- The characters of a conversion specifier, after the `%`. -/
def specFmt : ConvSpec → List Char
  | .cx => ['x']
  | .clx => ['l', 'x']
  | .cp => ['p']
  | .cs => ['s']

/-- What a conversion emits, given the argument list. -/
def specEmit : ConvSpec → List WldArg → List Char
  | .cx, args => toHexW 8 ((popNum args).1 % 4294967296)
  | .clx, args => toHexW 16 ((popNum args).1 % 18446744073709551616)
  | .cp, args => toHexW 16 ((popNum args).1 % 18446744073709551616)
  | .cs, args => (popStr args).1

/-- The arguments remaining after one conversion. -/
def specRest : ConvSpec → List WldArg → List WldArg
  | .cs, args => (popStr args).2
  | _, args => (popNum args).2

/-! ## Page rounding and the reservation engine -/

/-- Runtime page size.  `wld_start` initialises it from `AT_PAGESZ` with
default 4096; we model the x86-64 Linux build, where it is 4096. -/
def page_size : Nat := 4096

/-- `page_mask = page_size - 1`. -/
def page_mask : Nat := 4095

/-- `x & ~page_mask`, i.e. round down to a page boundary.  For the
power-of-two page size this bit operation equals subtracting `x mod 4096`. -/
def roundDownPage (x : Nat) : Nat := x - x % 4096

/-- `(x + page_mask) & ~page_mask`, i.e. round up to a page boundary. -/
def roundUpPage (x : Nat) : Nat := (x + 4095) - (x + 4095) % 4096

/-- 2^64, the modulus of `unsigned long` on x86-64. -/
def U64 : Nat := 18446744073709551616

/-- The ASCII apostrophe, used in the `WINEPRELOADRESERVE` error message. -/
def sq : Char := Char.ofNat 39

/-- The static reservation list `preload_info` of the x86-64 build, with
its two trailing free slots (one for the `WINEPRELOADRESERVE` range, one
for the terminator). -/
def preload_info_init : List (Nat × Nat) :=
  [(0x000000010000, 0x00100000),     -- DOS area
   (0x000000110000, 0x67ef0000),     -- low memory area
   (0x00007ff00000, 0x000f0000),     -- shared user data
   (0x7ffffe000000, 0x01ff0000),     -- top-down allocations + virtual heap
   (0, 0),                           -- slot for WINEPRELOADRESERVE
   (0, 0)]                           -- end of list

/-- Parser state of the loop in `preload_reserve` (preloader.c:1284):
accumulated hex value, the recorded `start`, and the `first` flag that
tracks whether a dash has been seen. -/
structure ParseSt where
  result : Nat
  start : Nat
  first : Bool
deriving DecidableEq

/-- One character step of the `preload_reserve` parse loop.  `result` is an
`unsigned long` and wraps modulo 2^64.  A second dash or any other
character jumps to the error label, modelled as `none`.  The C compares
bytes; the ASCII codes are 48-57 for `0`-`9`, 97-102 for `a`-`f`,
65-70 for `A`-`F` and 45 for `-`. -/
def parseStep (st : ParseSt) (c : Char) : Option ParseSt :=
  if 48 ≤ c.toNat ∧ c.toNat ≤ 57 then
    some { st with result := (st.result * 16 + (c.toNat - 48)) % U64 }
  else if 97 ≤ c.toNat ∧ c.toNat ≤ 102 then
    some { st with result := (st.result * 16 + (c.toNat - 97 + 10)) % U64 }
  else if 65 ≤ c.toNat ∧ c.toNat ≤ 70 then
    some { st with result := (st.result * 16 + (c.toNat - 65 + 10)) % U64 }
  else if c.toNat = 45 then
    if st.first then some { result := 0, start := roundDownPage st.result, first := false }
    else none
  else none

/-- The whole parse loop of `preload_reserve`. -/
def parseLoop : List Char → ParseSt → Option ParseSt
  | [], st => some st
  | c :: cs, st =>
      match parseStep st c with
      | none => none
      | some st' => parseLoop cs st'

/-- The scan over the low static ranges (preloader.c:1314-1324): entries
whose base is at most 0x110000 either swallow the user range entirely
(`end <= addr+size` discards it) or push its start up to their end. -/
def low_scan : List (Nat × Nat) → Nat → Nat → Nat × Nat
  | [], s, e => (s, e)
  | (a, sz) :: rest, s, e =>
      if sz = 0 then (s, e)
      else if a > 0x110000 then (s, e)
      else if e ≤ a + sz then (0, 0)
      else if s < a + sz then low_scan rest (a + sz) e
      else low_scan rest s e

/-- Store `(start, end - start)` into the first zero-size slot of the list
(the `while (preload_info[i].size) i++` step followed by the two stores). -/
def recordSlot : List (Nat × Nat) → Nat → Nat → List (Nat × Nat)
  | [], _, _ => []
  | (a, sz) :: rest, s, e => if sz = 0 then (s, e - s) :: rest else (a, sz) :: recordSlot rest s e

/-- The format string of the fatal error in `preload_reserve`. -/
def invalidReserveFmt : List Char :=
  ("invalid WINEPRELOADRESERVE value ".toList) ++ [sq, '%', 's', sq, '\n']

/-- A fatal error's message, built by `wld_vsprintf` exactly as
`fatal_error` does. -/
def fatalMsg (fmt : List Char) (args : List WldArg) : List Char :=
  (wld_vsprintf fmt args).getD []

/-- The sanity checks and recording tail of `preload_reserve`, shared by
the dash and the no-dash paths: null the range if it is empty or overlaps
the preloader `[pstart, pend]` extent, truncate it against the low static
ranges, and store it in the first free slot. -/
def preload_finish (s e pstart pend : Nat) : List (Nat × Nat) :=
  let p := if e ≤ s then ((0 : Nat), (0 : Nat))
           else if e > pstart ∧ s ≤ pend then (0, 0)
           else (s, e)
  let q := low_scan preload_info_init p.1 p.2
  recordSlot preload_info_init q.1 q.2

/-- `preload_reserve` (preloader.c:1277): parse the `WINEPRELOADRESERVE`
string and record the resulting range.  `pstart`/`pend` are the runtime
values of `preloader_start`/`preloader_end`.  A parse error is fatal with
the formatted message; otherwise the updated `preload_info` list is
returned.  (The overlap-with-preloader case prints a warning, which is not
tracked, and continues with a nulled range.) -/
def preload_reserve (str : List Char) (pstart pend : Nat) :
    Except (List Char) (List (Nat × Nat)) :=
  match parseLoop str ⟨0, 0, true⟩ with
  | none => .error (fatalMsg invalidReserveFmt [.str str])
  | some st =>
      if st.first then
        if st.result ≠ 0 then .error (fatalMsg invalidReserveFmt [.str str])
        else .ok (preload_finish 0 0 pstart pend)
      else .ok (preload_finish st.start (roundUpPage st.result) pstart pend)

/-- Is `c` one of the hexadecimal digits accepted by `preload_reserve`? -/
def isHexDigit (c : Char) : Bool :=
  (48 ≤ c.toNat ∧ c.toNat ≤ 57) ∨ (97 ≤ c.toNat ∧ c.toNat ≤ 102)
    ∨ (65 ≤ c.toNat ∧ c.toNat ≤ 70)

/-- Numeric value of an accepted hex digit. -/
def hexVal (c : Char) : Nat :=
  if 48 ≤ c.toNat ∧ c.toNat ≤ 57 then c.toNat - 48
  else if 97 ≤ c.toNat ∧ c.toNat ≤ 102 then c.toNat - 97 + 10
  else c.toNat - 65 + 10

/-- The accumulated value of a digit string, as computed by the parse loop
(wrapping modulo 2^64 at each step). -/
def hexValList (r : Nat) (l : List Char) : Nat :=
  l.foldl (fun acc c => (acc * 16 + hexVal c) % U64) r

/-- A well-formed `START-END` reservation string: two nonempty hex digit
strings joined by a single dash. -/
def wellFormedReserve (l : List Char) : Bool :=
  match l.splitOn '-' with
  | [a, b] => ¬a.isEmpty ∧ ¬b.isEmpty ∧ a.all isHexDigit ∧ b.all isHexDigit
  | _ => false

/-- Substring test used to state "the message contains ...". -/
def containsStr (hay needle : List Char) : Bool :=
  (List.range (hay.length + 1)).any (fun i => (hay.drop i).take needle.length == needle)

/-! ## The ELF mapper (`map_so_lib`) -/

/-- One ELF program header, as read from the 2 KiB header buffer. -/
structure Phdr where
  p_type : Nat
  p_offset : Nat
  p_vaddr : Nat
  p_filesz : Nat
  p_memsz : Nat
  p_align : Nat
  p_flags : Nat
deriving DecidableEq

/-- The inputs `map_so_lib` reads from the target file (x86-64 build):
whether `wld_open` succeeded, how many bytes the file holds (the 2 KiB
`wld_read` returns `min fileSize 2048`), the identification bytes, the
header fields used, and the program-header table located at `e_phoff`
inside the buffer. -/
structure ElfIn where
  openOk : Bool
  fileSize : Nat
  ident0 : Nat
  ident1 : Nat
  ident2 : Nat
  ident3 : Nat
  e_machine : Nat
  e_type : Nat
  e_phnum : Nat
  e_phoff : Nat
  e_entry : Nat
  phdrs : List Phdr
deriving DecidableEq

/-- One collected load command (`struct loadcmd` in `map_so_lib`). -/
structure LoadCmd where
  mapstart : Nat
  mapend : Nat
  dataend : Nat
  allocend : Nat
  mapoff : Nat
  prot : Nat
deriving DecidableEq

/-- `struct wld_link_map`, with the link-time virtual offsets held as
numbers (they are biased by `l_addr` at the end of `map_so_lib`). -/
structure LinkMap where
  l_addr : Nat
  l_ld : Nat
  l_phdr : Nat
  l_entry : Nat
  l_ldnum : Nat
  l_phnum : Nat
  l_map_start : Nat
  l_map_end : Nat
  l_interp : Nat
deriving DecidableEq

/-- Memory-changing syscalls issued by `map_so_lib`, in program order.
`fixed` records `MAP_FIXED`; `fileBacked` distinguishes `MAP_FILE`
mappings from `MAP_ANON` ones; `ret` is the address the kernel returns
(chosen by the kernel only for the single non-fixed mapping). -/
inductive MapEv where
  | mmap (addr len prot : Nat) (fixed fileBacked : Bool) (off ret : Nat)
  | mprotect (addr len prot : Nat)
  | memset0 (addr len : Nat)
deriving DecidableEq

/-- Is the event a file-backed `mmap`? -/
def isFileMmap : MapEv → Bool
  | .mmap _ _ _ _ fileBacked _ _ => fileBacked
  | _ => false

/-- Number of file-backed mappings in an event list. -/
def countFileMmaps (evs : List MapEv) : Nat := (evs.filter isFileMmap).length

/-- Fatal message `"%s: could not open\n"`. -/
def openFailMsg (name : List Char) : List Char :=
  fatalMsg (['%', 's'] ++ (": could not open\n".toList)) [.str name]

/-- Fatal message `"%s: failed to read ELF header\n"`. -/
def readFailMsg (name : List Char) : List Char :=
  fatalMsg (['%', 's'] ++ (": failed to read ELF header\n".toList)) [.str name]

/-- Fatal message for a bad ELF magic (the apostrophe of the original
text is `sq`). -/
def badMagicMsg (name : List Char) : List Char :=
  fatalMsg (['%', 's'] ++ (": not an ELF binary... don".toList) ++ [sq]
    ++ ("t know how to load it\n".toList)) [.str name]

/-- Fatal message for a non-x86-64 machine type. -/
def badMachineMsg (name : List Char) : List Char :=
  fatalMsg (['%', 's'] ++ (": not an x86-64 ELF binary... don".toList) ++ [sq]
    ++ ("t know how to load it\n".toList)) [.str name]

/-- Fatal message `"%s: oops... not enough space for load commands\n"`. -/
def phnumMsg (name : List Char) : List Char :=
  fatalMsg (['%', 's'] ++ (": oops... not enough space for load commands\n".toList))
    [.str name]

/-- Fatal message `"%s: oops... not enough space for ELF headers\n"`. -/
def phoffMsg (name : List Char) : List Char :=
  fatalMsg (['%', 's'] ++ (": oops... not enough space for ELF headers\n".toList))
    [.str name]

/-- Fatal message for a load command whose alignment is not page-aligned. -/
def alignMsg (name : List Char) : List Char :=
  fatalMsg (['%', 's'] ++ (": ELF load command alignment not page-aligned\n".toList))
    [.str name]

/-- Fatal message for a misaligned vaddr/offset pair. -/
def addrAlignMsg (name : List Char) : List Char :=
  fatalMsg (['%', 's'] ++ (": ELF load command address/offset not properly aligned\n".toList))
    [.str name]

/-- Fatal message `"%s: no segments to load\n"`. -/
def noSegMsg (name : List Char) : List Char :=
  fatalMsg (['%', 's'] ++ (": no segments to load\n".toList)) [.str name]

/-- Fatal message `"%s: binary overlaps preloader (%p-%p)\n"`. -/
def overlapMsg (name : List Char) (a b : Nat) : List Char :=
  fatalMsg (['%', 's'] ++ (": binary overlaps preloader (".toList)
      ++ ['%', 'p', '-', '%', 'p', ')', '\n'])
    [.str name, .num a, .num b]

/-- Fatal message `"no program header\n"`. -/
def noPhdrMsg : List Char := fatalMsg ("no program header\n".toList) []

/-- Protection translated from `PF_R`/`PF_W`/`PF_X` (4/2/1) to
`PROT_READ`/`PROT_WRITE`/`PROT_EXEC` (1/2/4); the C builds it with `|=`
on disjoint bits. -/
def protOf (flags : Nat) : Nat :=
  (if flags &&& 4 ≠ 0 then 1 else 0) + (if flags &&& 2 ≠ 0 then 2 else 0)
    + (if flags &&& 1 ≠ 0 then 4 else 0)

/-- Processing of one program header by the scan loop of `map_so_lib`
(preloader.c:972-1041).  `PT_DYNAMIC = 2` records `l_ld` and `l_ldnum`
(the source divides `p_memsz` by `sizeof(Elf32_Dyn) = 8`); `PT_PHDR = 6`
records `l_phdr`; `PT_INTERP = 3` records `l_interp`; `PT_LOAD = 1`
validates the alignments and emits a load command; everything else is
skipped.  The vaddr/offset check computes `p_vaddr - p_offset` in a
wrapping 64-bit integer before masking with `p_align - 1`. -/
def scanPhdr (name : List Char) (lm : LinkMap) (cmds : List LoadCmd) (ph : Phdr) :
    Except (List Char) (LinkMap × List LoadCmd) :=
  if ph.p_type = 2 then
    .ok ({ lm with l_ld := ph.p_vaddr, l_ldnum := ph.p_memsz / 8 }, cmds)
  else if ph.p_type = 6 then
    .ok ({ lm with l_phdr := ph.p_vaddr }, cmds)
  else if ph.p_type = 1 then
    if Nat.land ph.p_align 4095 ≠ 0 then .error (alignMsg name)
    else if Nat.land (((ph.p_vaddr % U64 + U64) - ph.p_offset % U64) % U64)
        (ph.p_align - 1) ≠ 0 then .error (addrAlignMsg name)
    else
      .ok (lm, cmds ++ [{
        mapstart := ph.p_vaddr - Nat.land ph.p_vaddr (ph.p_align - 1),
        mapend := roundUpPage (ph.p_vaddr + ph.p_filesz),
        dataend := ph.p_vaddr + ph.p_filesz,
        allocend := ph.p_vaddr + ph.p_memsz,
        mapoff := ph.p_offset - Nat.land ph.p_offset (ph.p_align - 1),
        prot := protOf ph.p_flags }])
  else if ph.p_type = 3 then
    .ok ({ lm with l_interp := ph.p_vaddr }, cmds)
  else
    .ok (lm, cmds)

/-- The whole program-header scan. -/
def scanPhdrs (name : List Char) : List Phdr → LinkMap → List LoadCmd →
    Except (List Char) (LinkMap × List LoadCmd)
  | [], lm, cmds => .ok (lm, cmds)
  | ph :: rest, lm, cmds =>
      match scanPhdr name lm cmds ph with
      | .error m => .error m
      | .ok (lm', cmds') => scanPhdrs name rest lm' cmds'

/-- The program-header discovery step at the `postmap` label: if `l_phdr`
is still unset and this load command's file window covers the
program-header table (`sizeof(ElfW(Phdr)) = 56`), record its unbiased
address. -/
def phdrFind (e_phoff e_phnum : Nat) (lm : LinkMap) (c : LoadCmd) : LinkMap :=
  if lm.l_phdr = 0 ∧ c.mapoff ≤ e_phoff ∧
      e_phoff + e_phnum * 56 ≤ c.mapend - c.mapstart + c.mapoff then
    { lm with l_phdr := c.mapstart + e_phoff - c.mapoff }
  else lm

/-- The tail-zeroing step of the mapping loop (preloader.c:1103-1146):
zero the end of the last file-backed page (temporarily making it
writable if needed) and map anonymous pages for the rest of the BSS. -/
def zeroEvents (l_addr : Nat) (c : LoadCmd) : List MapEv :=
  if c.dataend < c.allocend then
    let zstart := l_addr + c.dataend
    let zeroendRaw := l_addr + c.allocend
    let zeropageRaw := roundUpPage zstart
    let zeroend := roundUpPage zeroendRaw
    let zeropage := if zeroend < zeropageRaw then zeroend else zeropageRaw
    (if zstart < zeropage then
      (if c.prot &&& 2 = 0 then [MapEv.mprotect (roundDownPage zstart) 4096 (c.prot ||| 2)]
       else [])
      ++ [MapEv.memset0 zstart (zeropage - zstart)]
      ++ (if c.prot &&& 2 = 0 then [MapEv.mprotect (roundDownPage zstart) 4096 c.prot]
          else [])
     else [])
    ++ (if zeropage < zeroend then
          [MapEv.mmap zeropage (zeroend - zeropage) c.prot true false 0 zeropage]
        else [])
  else []

/-- The mapping loop of `map_so_lib` (preloader.c:1087-1149).  `skip` is
true exactly when the `goto postmap` of the ET_DYN path entered the loop
body past the first load command's own `wld_mmap`. -/
def mapLoop (e_phoff e_phnum l_addr : Nat) :
    List LoadCmd → Bool → LinkMap → List MapEv → LinkMap × List MapEv
  | [], _, lm, evs => (lm, evs)
  | c :: rest, skip, lm, evs =>
      let evs1 := if ¬skip ∧ c.mapstart < c.mapend then
          evs ++ [MapEv.mmap (l_addr + c.mapstart) (c.mapend - c.mapstart) c.prot
                    true true c.mapoff (l_addr + c.mapstart)]
        else evs
      let lm1 := phdrFind e_phoff e_phnum lm c
      mapLoop e_phoff e_phnum l_addr rest false lm1 (evs1 ++ zeroEvents l_addr c)

/-- The final fix-ups of `map_so_lib`: fatal if no program header was
found; otherwise bias `l_phdr` and `l_entry` by the load address. -/
def finishMap (lm : LinkMap) (evs : List MapEv) :
    Except (List Char × List MapEv) (LinkMap × List MapEv) :=
  if lm.l_phdr = 0 then .error (noPhdrMsg, evs)
  else .ok ({ lm with
                l_phdr := lm.l_phdr + lm.l_addr
                l_entry := lm.l_entry + lm.l_addr }, evs)

/-- The `wld_link_map` fields as initialised at preloader.c:965-970. -/
def initLinkMap (f : ElfIn) : LinkMap :=
  { l_addr := 0, l_ld := 0, l_phdr := 0, l_entry := f.e_entry, l_ldnum := 0,
    l_phnum := f.e_phnum, l_map_start := 0, l_map_end := 0, l_interp := 0 }

/-- `map_so_lib` (preloader.c:921) for the x86-64 build.  `dynBase` is the
address the kernel returns for the single non-fixed mapping of an ET_DYN
object; `pstart`/`pend` are `preloader_start`/`preloader_end`.  A fatal
error carries the formatted message and the memory events already issued.
`EM_X86_64 = 62`; `ET_DYN = 3`; every non-ET_DYN type takes the
fixed-address path, whose sanity check compares against the preloader
extent.  The ET_DYN path performs the single big mapping, derives
`l_addr = dynBase - mapstart`, no-access-protects the tail, and enters
the loop at `postmap` so that only the first load command skips its own
fixed re-mapping. -/
def map_so_lib (name : List Char) (f : ElfIn) (dynBase pstart pend : Nat) :
    Except (List Char × List MapEv) (LinkMap × List MapEv) :=
  if f.openOk = false then .error (openFailMsg name, [])
  else if min f.fileSize 2048 ≠ 2048 then .error (readFailMsg name, [])
  else if ¬(f.ident0 = 0x7f ∧ f.ident1 = 69 ∧ f.ident2 = 76 ∧ f.ident3 = 70) then
    .error (badMagicMsg name, [])
  else if f.e_machine ≠ 62 then .error (badMachineMsg name, [])
  else if 16 < f.e_phnum then .error (phnumMsg name, [])
  else if 2048 < f.e_phoff + f.e_phnum * 56 then .error (phoffMsg name, [])
  else
    match scanPhdrs name f.phdrs (initLinkMap f) [] with
    | .error m => .error (m, [])
    | .ok (lm, cmds) =>
        match cmds with
        | [] => .error (noSegMsg name, [])
        | c0 :: rest =>
            let maplength := (rest.getLastD c0).allocend - c0.mapstart
            if f.e_type = 3 then
              let l_addr := dynBase - c0.mapstart
              let lm1 := { lm with
                             l_map_start := dynBase
                             l_map_end := dynBase + maplength
                             l_addr := l_addr }
              let evs0 := [MapEv.mmap c0.mapstart maplength c0.prot false true
                             c0.mapoff dynBase,
                           MapEv.mprotect (l_addr + c0.mapend)
                             ((rest.getLastD c0).allocend - c0.mapend) 0]
              let r := mapLoop f.e_phoff f.e_phnum l_addr (c0 :: rest) true lm1 evs0
              finishMap r.1 r.2
            else
              if pstart < c0.mapstart + maplength ∧ c0.mapstart ≤ pend then
                .error (overlapMsg name c0.mapstart (c0.mapstart + maplength), [])
              else
                let lm1 := { lm with
                               l_map_start := c0.mapstart + lm.l_addr
                               l_map_end := c0.mapstart + lm.l_addr + maplength }
                let r := mapLoop f.e_phoff f.e_phnum lm.l_addr (c0 :: rest) false lm1 []
                finishMap r.1 r.2

/-- The events the mapping loop appends for a suffix of the load
commands: an optional fixed file re-mapping (skipped for the first load
command on the ET_DYN path) followed by the tail-zeroing events. -/
def loopEvents (l_addr : Nat) : List LoadCmd → Bool → List MapEv
  | [], _ => []
  | c :: rest, skip =>
      (if ¬skip ∧ c.mapstart < c.mapend then
         [MapEv.mmap (l_addr + c.mapstart) (c.mapend - c.mapstart) c.prot
            true true c.mapoff (l_addr + c.mapstart)]
       else [])
      ++ zeroEvents l_addr c ++ loopEvents l_addr rest false

/-! ## Symbol lookup (`find_symbol`) -/

/-- `wld_strcmp` (preloader.c:690) on the character lists before the NUL:
compare until a mismatch or the end of the first string, then return the
difference of the current bytes. -/
def wld_strcmp : List Char → List Char → Int
  | [], [] => 0
  | [], c2 :: _ => 0 - (c2.toNat : Int)
  | c1 :: _, [] => (c1.toNat : Int)
  | c1 :: r1, c2 :: r2 =>
      if c1 = c2 then wld_strcmp r1 r2 else (c1.toNat : Int) - (c2.toNat : Int)

/-- The C string stored at offset `off` of a string table: the bytes up
to the next NUL. -/
def cstrAt (tab : List Char) (off : Nat) : List Char :=
  (tab.drop off).takeWhile (fun c => c.toNat ≠ 0)

/-- 2^32, the modulus of `unsigned int`. -/
def U32 : Nat := 4294967296

/-- `wld_elf_hash` (preloader.c:1160): the classical ELF hash, computed
in a wrapping `unsigned int`: `hash = (hash << 4) + byte`, then the top
nibble is folded back in with two xors. -/
def wld_elf_hash (name : List Char) : Nat :=
  name.foldl (fun h c =>
    let h1 := (h * 16 + c.toNat) % U32
    let hi := h1 &&& 0xf0000000
    ((h1 ^^^ hi) ^^^ (hi >>> 24))) 0

/-- `gnu_hash` (preloader.c:1173): the DJB hash, seed 5381, multiplier
33, in a wrapping `unsigned int`. -/
def gnu_hash (name : List Char) : Nat :=
  name.foldl (fun h c => (h * 33 + c.toNat) % U32) 5381

/-- One entry of the dynamic symbol table. -/
structure ElfSym where
  st_name : Nat
  st_info : Nat
  st_value : Nat
deriving DecidableEq

/-- A loaded image as `find_symbol` sees it: the biased link map data and
the tables its dynamic section points at.  The runtime program headers
are reduced to their `(p_type, p_vaddr)` pairs; the dynamic section is
the list of `(d_tag, d_ptr)` pairs, scanned until the terminating tag 0.
The pointer dereferences of the C (`d_un.d_ptr + l_addr`) are modelled by
carrying the pointed-to tables (`symtab`, `strtab`, `elfTab`, `gnuTab`)
directly; `elfTab` and `gnuTab` hold the raw 32-bit words of the two hash
tables. -/
structure SymImage where
  l_addr : Nat
  phdrs : List (Nat × Nat)
  dyn : List (Nat × Nat)
  symtab : List ElfSym
  strtab : List Char
  elfTab : List Nat
  gnuTab : List Nat
deriving DecidableEq

/-- Does the dynamic section (scanned up to the terminating tag 0)
contain an entry with the given tag? -/
def dynHas : List (Nat × Nat) → Nat → Bool
  | [], _ => false
  | (t, _) :: rest, tag =>
      if t = 0 then false
      else if t = tag then true
      else dynHas rest tag

/-- Number of symbol-table entries. -/
def nsyms (img : SymImage) : Nat := img.symtab.length

/-- Symbol at index `i`; out-of-range reads are unconstrained memory in
the C, modelled by the null symbol. -/
def symAt (img : SymImage) (i : Nat) : ElfSym := img.symtab.getD i ⟨0, 0, 0⟩

/-- Name of the symbol at index `i`. -/
def symNameAt (img : SymImage) (i : Nat) : List Char :=
  cstrAt img.strtab (symAt img i).st_name

/-- `nbuckets` of the GNU hash table (word 0). -/
def gnuNBuckets (t : List Nat) : Nat := t.getD 0 0

/-- `symbias` of the GNU hash table (word 1). -/
def gnuSymbias (t : List Nat) : Nat := t.getD 1 0

/-- `nwords` of the GNU Bloom filter (word 2); the filter itself is
skipped by the code but offsets the bucket array by `2 * nwords` 32-bit
words (the bitmask entries are 64-bit). -/
def gnuNWords (t : List Nat) : Nat := t.getD 2 0

/-- Bucket `b` of the GNU hash table. -/
def gnuBucket (t : List Nat) (b : Nat) : Nat :=
  t.getD (4 + 2 * gnuNWords t + b) 0

/-- Chain entry for symbol index `i`: `chains = buckets + nbuckets -
symbias`, so `chains[i]` lives at word `4 + 2*nwords + nbuckets + i -
symbias`. -/
def gnuChain (t : List Nat) (i : Nat) : Nat :=
  t.getD (4 + 2 * gnuNWords t + gnuNBuckets t + i - gnuSymbias t) 0

/-- `v & ~1u`. -/
def clearLow1 (v : Nat) : Nat := v - v % 2

/-- `nbuckets` of the classical hash table (word 0). -/
def elfNBuckets (t : List Nat) : Nat := t.getD 0 0

/-- Bucket `b` of the classical hash table (buckets start at word 2). -/
def elfBucket (t : List Nat) (b : Nat) : Nat := t.getD (2 + b) 0

/-- Chain entry `i` of the classical hash table
(`chains = buckets + nbuckets`). -/
def elfChainAt (t : List Nat) (i : Nat) : Nat :=
  t.getD (2 + t.getD 0 0 + i) 0

/-- The matching condition common to both walks: global binding
(`st_info >> 4 = STB_GLOBAL = 1`), requested type (`st_info & 0xf`), and
name equality via `wld_strcmp`. -/
def symMatches (img : SymImage) (var : List Char) (typ i : Nat) : Prop :=
  (symAt img i).st_info >>> 4 = 1 ∧ (symAt img i).st_info &&& 15 = typ ∧
    wld_strcmp (symNameAt img i) var = 0

instance (img : SymImage) (var : List Char) (typ i : Nat) :
    Decidable (symMatches img var typ i) := by
  unfold symMatches; infer_instance

/-- The GNU-hash walk (preloader.c:1237-1244): a `do`/`while` over
consecutive symbol indices; an entry matches when its chain word agrees
with the query hash modulo the low bit and `symMatches` holds; the walk
ends when a chain word has its low bit set.  `none` models fuel
exhaustion (a table whose chain never terminates). -/
def gnuLookupLoop (img : SymImage) (var : List Char) (typ : Nat) :
    Nat → Nat → Option (Option Nat)
  | 0, _ => none
  | fuel + 1, idx =>
      if clearLow1 (gnuChain img.gnuTab idx) = clearLow1 (gnu_hash var)
          ∧ symMatches img var typ idx then
        some (some idx)
      else if gnuChain img.gnuTab idx % 2 = 1 then some none
      else gnuLookupLoop img var typ fuel (idx + 1)

/-- The classical-hash walk (preloader.c:1253-1259): follow the chain
array from the bucket head until index 0. -/
def elfLookupLoop (img : SymImage) (var : List Char) (typ : Nat) :
    Nat → Nat → Option (Option Nat)
  | 0, _ => none
  | fuel + 1, idx =>
      if idx = 0 then some none
      else if symMatches img var typ idx then some (some idx)
      else elfLookupLoop img var typ fuel (elfChainAt img.elfTab idx)

/-- `find_symbol` (preloader.c:1183): locate the dynamic section through
the program headers (`PT_DYNAMIC = 2`), require `DT_SYMTAB = 6` and
`DT_STRTAB = 5`, then look the name up through `DT_GNU_HASH = 0x6ffffef5`
if present, else through `DT_HASH = 4`; return
`st_value + l_addr` of the symbol found, `some none` for a null result,
`none` when the fuel runs out inside a malformed chain. -/
def find_symbol (img : SymImage) (var : List Char) (typ fuel : Nat) :
    Option (Option Nat) :=
  if (img.phdrs.find? (fun p => p.1 = 2)).isNone then some none
  else if ¬(dynHas img.dyn 6 = true ∧ dynHas img.dyn 5 = true) then some none
  else if dynHas img.dyn 0x6ffffef5 then
    let idx0 := gnuBucket img.gnuTab (gnu_hash var % gnuNBuckets img.gnuTab)
    if idx0 = 0 then some none
    else (gnuLookupLoop img var typ fuel idx0).map
      (Option.map (fun i => (symAt img i).st_value + img.l_addr))
  else if dynHas img.dyn 4 then
    (elfLookupLoop img var typ fuel
        (elfBucket img.elfTab (wld_elf_hash var % elfNBuckets img.elfTab))).map
      (Option.map (fun i => (symAt img i).st_value + img.l_addr))
  else some none

/-- `k`-fold application of the classical chain step. -/
def elfIter (t : List Nat) : Nat → Nat → Nat
  | 0, idx => idx
  | k + 1, idx => elfIter t k (elfChainAt t idx)

/-- Well-formedness of the classical hash table with respect to the
symbol table: every bucket's chain reaches 0 within `nsyms` steps while
staying inside the table, and every symbol (other than the null entry 0)
is on the chain of its own hash bucket before the chain ends. -/
def elfWF (img : SymImage) : Prop :=
  0 < elfNBuckets img.elfTab ∧
  ∀ b, b < elfNBuckets img.elfTab →
    ∃ k0, k0 < nsyms img + 1 ∧ elfIter img.elfTab k0 (elfBucket img.elfTab b) = 0 ∧
      (∀ k, k < k0 → 0 < elfIter img.elfTab k (elfBucket img.elfTab b) ∧
        elfIter img.elfTab k (elfBucket img.elfTab b) < nsyms img) ∧
      (∀ i, i < nsyms img → 1 ≤ i →
        wld_elf_hash (symNameAt img i) % elfNBuckets img.elfTab = b →
        ∃ k, k < k0 ∧ elfIter img.elfTab k (elfBucket img.elfTab b) = i)

/-- Well-formedness of the GNU hash table with respect to the symbol
table: the chain word of every indexed symbol stores its name hash
(modulo the terminator bit); every indexed symbol is reachable from its
own bucket by walking consecutive indices with no terminator bit in
between; and every nonempty bucket's chain carries a terminator inside
the symbol table. -/
def gnuWF (img : SymImage) : Prop :=
  0 < gnuNBuckets img.gnuTab ∧
  1 ≤ gnuSymbias img.gnuTab ∧
  (∀ i, i < nsyms img → gnuSymbias img.gnuTab ≤ i →
    clearLow1 (gnuChain img.gnuTab i) = clearLow1 (gnu_hash (symNameAt img i))) ∧
  (∀ i, i < nsyms img → gnuSymbias img.gnuTab ≤ i →
    gnuBucket img.gnuTab (gnu_hash (symNameAt img i) % gnuNBuckets img.gnuTab) ≠ 0 ∧
    gnuBucket img.gnuTab (gnu_hash (symNameAt img i) % gnuNBuckets img.gnuTab) ≤ i ∧
    (∀ j, gnuBucket img.gnuTab
        (gnu_hash (symNameAt img i) % gnuNBuckets img.gnuTab) ≤ j → j < i →
      gnuChain img.gnuTab j % 2 = 0)) ∧
  (∀ b, b < gnuNBuckets img.gnuTab → gnuBucket img.gnuTab b ≠ 0 →
    gnuSymbias img.gnuTab ≤ gnuBucket img.gnuTab b ∧
    (∃ e, e < nsyms img ∧ gnuBucket img.gnuTab b ≤ e ∧
      gnuChain img.gnuTab e % 2 = 1))

instance (img : SymImage) : Decidable (elfWF img) := by
  unfold elfWF
  infer_instance

instance (img : SymImage) : Decidable (gnuWF img) := by
  unfold gnuWF
  infer_instance

/-- The same image with the `DT_GNU_HASH` entry removed from its dynamic
section, so that `find_symbol` falls back to the classical hash table. -/
def stripGnu (img : SymImage) : SymImage :=
  { img with dyn := img.dyn.filter (fun d => d.1 ≠ 0x6ffffef5) }

/-! ## The auxiliary-vector rewriter (`set_auxiliary_values`)

The function edits the incoming stack in place, so it is modelled over a
word-granular memory: `Mem` maps a 64-bit word index to its value, and a
byte address `a` (always a multiple of 8 here — the guard in the model
refuses anything else) denotes word `a / 8`.  An auxv entry `k` of an
array at byte address `av` has its `a_type` word at `av + 16k` and its
`a_un.a_val` word at `av + 16k + 8`. -/

/-- Word-indexed memory. -/
abbrev Mem := Nat → Nat

/-- Read the word at byte address `a`. -/
def wordGet (m : Mem) (a : Nat) : Nat := m (a / 8)

/-- Write the word at byte address `a`. -/
def wordSet (m : Mem) (a v : Nat) : Mem := fun w => if w = a / 8 then v else m w

/-- The `while (av[av_count].a_type != AT_NULL) av_count++` scan, with
fuel (`none` models an unterminated auxv running off the stack). -/
def countAux (m : Mem) (av : Nat) : Nat → Nat → Option Nat
  | 0, _ => none
  | fuel + 1, c => if wordGet m (av + 16 * c) = 0 then some c
      else countAux m av fuel (c + 1)

/-- The inner search `for (i = 0; i < av_count; i++) if (av[i].a_type ==
tag) break`: index of the first entry with the given type, if any. -/
def findIdx (m : Mem) (av avc tag : Nat) : Option Nat :=
  (List.range avc).find? (fun i => wordGet m (av + 16 * i) == tag)

/-- The deletion loop (preloader.c:847-857): for each delete entry until
the `AT_NULL` terminator, find the first matching entry, copy the last
entry over it, set the last entry's type to `AT_NULL` (its value word is
left behind), and shrink the count.  Returns the memory, the new count,
and the number of deletions performed. -/
def deletePhase (av : Nat) : List (Nat × Nat) → Mem → Nat → Nat → Mem × Nat × Nat
  | [], m, avc, dc => (m, avc, dc)
  | d :: rest, m, avc, dc =>
      if d.1 = 0 then (m, avc, dc)
      else
        match findIdx m av avc d.1 with
        | none => deletePhase av rest m avc dc
        | some i =>
            let m1 := wordSet m (av + 16 * i) (wordGet m (av + 16 * (avc - 1)))
            let m2 := wordSet m1 (av + 16 * i + 8)
                        (wordGet m1 (av + 16 * (avc - 1) + 8))
            let m3 := wordSet m2 (av + 16 * (avc - 1)) 0
            deletePhase av rest m3 (avc - 1) (dc + 1)

/-- Is an entry with the given type present among the first `avc`
entries? -/
def presentIn (m : Mem) (av avc tag : Nat) : Bool :=
  (List.range avc).any (fun i => wordGet m (av + 16 * i) == tag)

/-- The count of new entries not already present (preloader.c:860-864). -/
def countNew (m : Mem) (av avc : Nat) : List (Nat × Nat) → Nat
  | [] => 0
  | d :: rest =>
      if d.1 = 0 then 0
      else (if presentIn m av avc d.1 then 0 else 1) + countNew m av avc rest

/-- Forward word copy, `for (i = 0; i < len; i++) dst[i] = src[i]`, on
word indices. -/
def copyFwd : Mem → Nat → Nat → Nat → Mem
  | m, _, _, 0 => m
  | m, dw, sw, n + 1 =>
      copyFwd (fun w => if w = dw then m sw else m w) (dw + 1) (sw + 1) n

/-- Backward word copy, `for (i = len - 1; i >= 0; i--) dst[i] =
src[i]`, on word indices. -/
def copyBwd : Mem → Nat → Nat → Nat → Mem
  | m, _, _, 0 => m
  | m, dw, sw, n + 1 =>
      copyBwd (fun w => if w = dw + n then m (sw + n) else m w) dw sw n

/-- The overwrite-or-append loop (preloader.c:883-893): for each new
entry until the terminator, overwrite the value of an existing entry of
the same type, or append the entry and grow the count. -/
def setPhase (av : Nat) : List (Nat × Nat) → Mem → Nat → Mem × Nat
  | [], m, avc => (m, avc)
  | d :: rest, m, avc =>
      if d.1 = 0 then (m, avc)
      else
        match findIdx m av avc d.1 with
        | some i => setPhase av rest (wordSet m (av + 16 * i + 8) d.2) avc
        | none =>
            let m1 := wordSet m (av + 16 * avc) d.1
            let m2 := wordSet m1 (av + 16 * avc + 8) d.2
            setPhase av rest m2 (avc + 1)

/-- `set_auxiliary_values` (preloader.c:837): count the auxv, delete the
requested tags, count the missing replacements, shift the block between
the stack top `src` and the end of the auxv by the net size change
(16-byte aligning the new stack top), and overwrite/append the
replacement entries at the shifted location.  Returns the new memory and
the new stack top.  `none` models the cases outside the word-granular
model: a misaligned stack or auxv pointer, an auxv without terminator
within `fuel`, or arithmetic the C would perform on a wrapped pointer. -/
def set_auxiliary_values (m : Mem) (av src : Nat)
    (newAv delAv : List (Nat × Nat)) (fuel : Nat) : Option (Mem × Nat) :=
  if ¬(src % 8 = 0 ∧ av % 8 = 0 ∧ src ≤ av) then none
  else
    match countAux m av fuel 0 with
    | none => none
    | some avc0 =>
        match deletePhase av delAv m avc0 0 with
        | (m1, avc1, dc) =>
            let nc := countNew m1 av avc1 newAv
            if src + 16 * dc < 16 * nc then none
            else
              let dstRaw := (src + 16 * dc) - 16 * nc
              let dst := dstRaw - dstRaw % 16
              let len := (av + 16 * (avc1 + 1)) - src
              let m2 := if dst < src then copyFwd m1 (dst / 8) (src / 8) (len / 8)
                        else if src < dst then copyBwd m1 (dst / 8) (src / 8) (len / 8)
                        else m1
              let av2 := (av + dst) - src
              some ((setPhase av2 newAv m2 avc1).1, dst)

/-- List-level shadow of `findIdx`. -/
def findIdxL (L : List (Nat × Nat)) (tag : Nat) : Option Nat :=
  (List.range L.length).find? (fun i => (L.getD i (0, 0)).1 == tag)

/-- List-level shadow of one deletion: replace the first matching entry
by the last entry and truncate by one. -/
def delOne (L : List (Nat × Nat)) (tag : Nat) : List (Nat × Nat) :=
  match findIdxL L tag with
  | none => L
  | some i => (L.set i (L.getD (L.length - 1) (0, 0))).dropLast

/-- List-level shadow of the whole deletion loop. -/
def delList : List (Nat × Nat) → List (Nat × Nat) → List (Nat × Nat)
  | L, [] => L
  | L, d :: rest => if d.1 = 0 then L else delList (delOne L d.1) rest

/-- List-level shadow of `countNew`. -/
def countNewL (L : List (Nat × Nat)) : List (Nat × Nat) → Nat
  | [] => 0
  | d :: rest =>
      if d.1 = 0 then 0
      else (if d.1 ∈ L.map Prod.fst then 0 else 1) + countNewL L rest

/-- List-level shadow of the overwrite-or-append loop. -/
def setList : List (Nat × Nat) → List (Nat × Nat) → List (Nat × Nat)
  | L, [] => L
  | L, d :: rest =>
      if d.1 = 0 then L
      else
        match findIdxL L d.1 with
        | some i => setList (L.set i (d.1, d.2)) rest
        | none => setList (L ++ [d]) rest

/-- The memory at `av` holds exactly the entries of `L`. -/
def avRepr (m : Mem) (av : Nat) (L : List (Nat × Nat)) : Prop :=
  ∀ k, k < L.length →
    wordGet m (av + 16 * k) = (L.getD k (0, 0)).1 ∧
    wordGet m (av + 16 * k + 8) = (L.getD k (0, 0)).2

instance (m : Mem) (av : Nat) (L : List (Nat × Nat)) : Decidable (avRepr m av L) := by
  unfold avRepr
  infer_instance

/-- Base address of the `i`-th static preload range. -/
def lowBase (i : Nat) : Nat := (preload_info_init.getD i (0, 0)).1

/-- End address (base + size) of the `i`-th static preload range. -/
def lowLimit (i : Nat) : Nat := lowBase i + (preload_info_init.getD i (0, 0)).2

/-- `remove_preload_range` (preloader.c:1350) from position `i` onwards:
while the current entry has nonzero size, copy the next entry over it and
advance.  Reading past the end of the backing array is undefined
behaviour, modelled as `none`. -/
def shiftTailAux : List (Nat × Nat) → Option (List (Nat × Nat))
  | [] => none
  | (a, sz) :: rest =>
      if sz = 0 then some ((a, sz) :: rest)
      else
        match rest with
        | [] => none
        | y :: rest2 => (shiftTailAux (y :: rest2)).map (fun t => y :: t)

/-- `remove_preload_range` on a list representation of the array. -/
def remove_preload_range (l : List (Nat × Nat)) (i : Nat) :
    Option (List (Nat × Nat)) :=
  (shiftTailAux (l.drop i)).map (fun t => l.take i ++ t)

/-- A two-PT_LOAD position-independent input for the ET_DYN path. -/
def dyn2Elf : ElfIn :=
  ⟨true, 2048, 0x7f, 69, 76, 70, 62, 3, 2, 64, 0x1000,
   [⟨1, 0, 0, 0x1000, 0x1000, 0x1000, 5⟩,
    ⟨1, 0x1000, 0x2000, 0x1000, 0x1000, 0x1000, 6⟩]⟩

/-- A small consistent image carrying the symbol `ab` in both hash
tables, used to witness claim C4's theorem. -/
def symImgW : SymImage :=
  ⟨0x7000, [(2, 0x3000)],
   [(6, 0), (5, 0), (4, 0), (0x6ffffef5, 0), (0, 0)],
   [⟨0, 0, 0⟩, ⟨1, 0x11, 0x100⟩],
   [Char.ofNat 0, 'a', 'b', Char.ofNat 0],
   [1, 2, 1, 0, 0],
   [1, 1, 1, 0, 0, 0, 1, 5863209]⟩

/-- A concrete incoming stack for `set_auxiliary_values`: sixteen bytes
of stack data at byte 0, then the auxv `[(7, 5)]` at byte 16,
terminated by an `(AT_NULL, 0)` entry; entry type 7 carries value 5. -/
def cexMem : Mem := fun w => [9, 9, 7, 5, 0, 0].getD w 0

/-- A concrete incoming stack whose auxv holds two entries of the same
type: stack data at byte 0, then `[(32, 1), (32, 2)]` at byte 16,
terminated by an `(AT_NULL, 0)` entry. -/
def cex6Mem : Mem := fun w => [9, 9, 32, 1, 32, 2, 0, 0].getD w 0

/-- A concrete incoming stack with stack data at bytes 16-31 and the
auxv `[(21, 77)]` at byte 32, terminated by an `(AT_NULL, 0)` entry. -/
def wMem : Mem := fun w => [1, 2, 9, 9, 21, 77, 0, 0].getD w 0

/-- A concrete incoming stack with stack data at bytes 16-31 and the
auxv `[(21, 77), (33, 44)]` at byte 32, terminated by an
`(AT_NULL, 0)` entry. -/
def w6Mem : Mem := fun w => [1, 2, 9, 9, 21, 77, 33, 44, 0, 0].getD w 0

end Preloader

namespace Preloader

/-- Claim C10: in `wld_vsprintf`, after a conversion specifier
(`%x`, `%lx`, `%p`, `%s`) is processed, the character immediately following
the specifier is always copied to the output literally, without being
interpreted, and formatting resumes only after it.  In particular, with
`c = '%'` this shows that in a format like `"%x%s"` the second `%` is
emitted as a literal character and the second conversion is not performed
(no further argument is consumed for it). -/
theorem wld_vsprintf_copies_char_after_specifier
    (sp : ConvSpec) (c : Char) (rest : List Char) (args : List WldArg) :
    wld_vsprintf ('%' :: specFmt sp ++ c :: rest) args
      = (wld_vsprintf rest (specRest sp args)).map
          (fun t => specEmit sp args ++ c :: t) := by
  cases sp <;> rfl

/-! ### Lemmas about the `preload_reserve` parser -/

lemma parseStep_hex (r s : Nat) (f : Bool) (c : Char) (hc : isHexDigit c = true) :
    parseStep ⟨r, s, f⟩ c = some ⟨(r * 16 + hexVal c) % U64, s, f⟩ := by
  simp only [isHexDigit, decide_eq_true_eq, Bool.or_eq_true] at hc
  simp only [parseStep, hexVal]
  split_ifs with h1 h2 h3 <;> first | rfl | omega

lemma parseLoop_hex (l : List Char) :
    ∀ (r s : Nat) (f : Bool), (∀ c ∈ l, isHexDigit c = true) →
      parseLoop l ⟨r, s, f⟩ = some ⟨hexValList r l, s, f⟩ := by
  induction l with
  | nil => intro r s f _; rfl
  | cons c cs ih =>
      intro r s f h
      have hc := h c (List.mem_cons_self c cs)
      simp only [parseLoop, parseStep_hex r s f c hc]
      rw [ih _ s f (fun x hx => h x (List.mem_cons_of_mem c hx))]
      rfl

lemma parseLoop_append (x y : List Char) :
    ∀ st, parseLoop (x ++ y) st = (parseLoop x st).bind (fun st' => parseLoop y st') := by
  induction x with
  | nil => intro st; rfl
  | cons c cs ih =>
      intro st
      simp only [List.cons_append, parseLoop]
      cases parseStep st c with
      | none => rfl
      | some st' => exact ih st'

lemma parseStep_some_cases (st st' : ParseSt) (c : Char)
    (h : parseStep st c = some st') :
    (isHexDigit c = true ∧ st'.start = st.start ∧ st'.first = st.first) ∨
    (c.toNat = 45 ∧ st.first = true ∧ st'.first = false) := by
  simp only [parseStep] at h
  split_ifs at h with h1 h2 h3 h4 h5 <;>
    simp only [Option.some.injEq] at h <;>
    first
    | (left
       constructor
       · simp only [isHexDigit, decide_eq_true_eq, Bool.or_eq_true]
         tauto
       · subst h; exact ⟨rfl, rfl⟩)
    | (right; subst h; exact ⟨h4, h5, rfl⟩)

lemma parseLoop_shape (l : List Char) :
    ∀ st st' : ParseSt, parseLoop l st = some st' →
      (st.first = false → (∀ c ∈ l, isHexDigit c = true)) ∧
      (st.first = true →
        ((∀ c ∈ l, isHexDigit c = true) ∨
         (∃ a b : List Char, l = a ++ '-' :: b ∧ (∀ c ∈ a, isHexDigit c = true) ∧
            (∀ c ∈ b, isHexDigit c = true)))) := by
  induction l with
  | nil =>
      intro st st' _
      exact ⟨fun _ => by simp, fun _ => Or.inl (by simp)⟩
  | cons c cs ih =>
      intro st st' h
      simp only [parseLoop] at h
      cases hstep : parseStep st c with
      | none => rw [hstep] at h; exact absurd h (by simp)
      | some st₁ =>
          rw [hstep] at h
          rcases parseStep_some_cases st st₁ c hstep with ⟨hhex, _, hfirst⟩ | ⟨hdash, hf, hfirst⟩
          · constructor
            · intro hf0
              have := (ih st₁ st' h).1 (by rw [hfirst, hf0])
              intro x hx
              rcases List.mem_cons.1 hx with rfl | hx
              · exact hhex
              · exact this x hx
            · intro hf1
              rcases (ih st₁ st' h).2 (by rw [hfirst, hf1]) with hall | ⟨a, b, rfl, ha, hb⟩
              · left
                intro x hx
                rcases List.mem_cons.1 hx with rfl | hx
                · exact hhex
                · exact hall x hx
              · right
                exact ⟨c :: a, b, by simp, fun x hx => by
                  rcases List.mem_cons.1 hx with rfl | hx
                  · exact hhex
                  · exact ha x hx, hb⟩
          · constructor
            · intro hf0; rw [hf0] at hf; cases hf
            · intro _
              right
              have hcs := (ih st₁ st' h).1 hfirst
              have : c = '-' := by
                have h45 : c.toNat = 45 := hdash
                exact Char.ext (UInt32.ext h45)
              exact ⟨[], cs, by rw [this]; rfl, by simp, hcs⟩

lemma low_scan_init (s e : Nat) :
    low_scan preload_info_init s e =
      if e ≤ 0x110000 then (0, 0)
      else if s < 0x110000 then
        (if e ≤ 0x68000000 then (0, 0) else (0x68000000, e))
      else if e ≤ 0x68000000 then (0, 0)
      else if s < 0x68000000 then (0x68000000, e)
      else (s, e) := by
  simp only [preload_info_init, low_scan]
  norm_num

lemma recordSlot_init (s e : Nat) :
    recordSlot preload_info_init s e =
      [(0x000000010000, 0x00100000), (0x000000110000, 0x67ef0000),
       (0x00007ff00000, 0x000f0000), (0x7ffffe000000, 0x01ff0000),
       (s, e - s), (0, 0)] := by
  simp [recordSlot, preload_info_init]

lemma invalidReserveMsg_eq (l : List Char) :
    fatalMsg invalidReserveFmt [.str l]
      = (("invalid WINEPRELOADRESERVE value ".toList) ++ [sq])
          ++ (l ++ [sq, '\n']) := by
  rfl

lemma containsStr_middle (pre post l : List Char) :
    containsStr (pre ++ (l ++ post)) l = true := by
  simp only [containsStr, List.any_eq_true, List.mem_range]
  refine ⟨pre.length, ?_, ?_⟩
  · simp [List.length_append]
    omega
  · rw [List.drop_left, List.take_left]
    simp

/-- Claim C3 (amended): `preload_reserve` records a well-formed
`START-END` range (start rounded down to a page, end rounded up) exactly
when the rounded range is nonempty, avoids the preloader extent and lies
above the low static ranges; a dash-free hex string whose value is 0
(such as `0`, `00` or the empty string) yields no new range; and any
string that is neither an accepted hex pair nor a dash-free zero-valued
hex string is fatal, with the offending string contained in the message
written before exiting. -/
theorem preload_reserve_spec (l : List Char) (pstart pend : Nat) :
    (∀ a b : List Char, l = a ++ '-' :: b →
      (∀ c ∈ a, isHexDigit c = true) → (∀ c ∈ b, isHexDigit c = true) →
      ∀ s e : Nat, s = roundDownPage (hexValList 0 a) →
        e = roundUpPage (hexValList 0 b) →
        s < e → ¬(e > pstart ∧ s ≤ pend) → 0x68000000 ≤ s →
        preload_reserve l pstart pend =
          .ok [(0x000000010000, 0x00100000), (0x000000110000, 0x67ef0000),
               (0x00007ff00000, 0x000f0000), (0x7ffffe000000, 0x01ff0000),
               (s, e - s), (0, 0)])
    ∧ ((∀ c ∈ l, isHexDigit c = true) → hexValList 0 l = 0 →
        preload_reserve l pstart pend = .ok preload_info_init)
    ∧ (¬((∀ c ∈ l, isHexDigit c = true) ∧ hexValList 0 l = 0) →
       ¬(∃ a b : List Char, l = a ++ '-' :: b ∧ (∀ c ∈ a, isHexDigit c = true) ∧
           (∀ c ∈ b, isHexDigit c = true)) →
        ∃ msg : List Char, preload_reserve l pstart pend = .error msg ∧
          containsStr msg l = true) := by
  refine ⟨?_, ?_, ?_⟩
  · rintro a b rfl ha hb s e hs he hse hover hlow
    have hdash : parseStep ⟨hexValList 0 a, 0, true⟩ '-'
        = some ⟨0, roundDownPage (hexValList 0 a), false⟩ := by
      simp [parseStep]
    have hfull : parseLoop (a ++ '-' :: b) ⟨0, 0, true⟩
        = some ⟨hexValList 0 b, roundDownPage (hexValList 0 a), false⟩ := by
      rw [parseLoop_append, parseLoop_hex a 0 0 true ha]
      show parseLoop ('-' :: b) ⟨hexValList 0 a, 0, true⟩
          = some ⟨hexValList 0 b, roundDownPage (hexValList 0 a), false⟩
      simp only [parseLoop, hdash]
      exact parseLoop_hex b 0 _ false hb
    rw [preload_reserve, hfull]
    show Except.ok (preload_finish (roundDownPage (hexValList 0 a))
        (roundUpPage (hexValList 0 b)) pstart pend) = _
    rw [← hs, ← he]
    simp only [preload_finish]
    rw [if_neg (by omega), if_neg hover, low_scan_init]
    rw [if_neg (by omega), if_neg (by omega), if_neg (by omega), if_neg (by omega)]
    rw [recordSlot_init]
  · intro hall hval
    rw [preload_reserve, parseLoop_hex l 0 0 true hall]
    show (if hexValList 0 l ≠ 0 then _ else Except.ok (preload_finish 0 0 pstart pend)) = _
    rw [if_neg (by simp [hval])]
    rfl
  · intro hnz hnd
    rw [preload_reserve]
    cases hp : parseLoop l ⟨0, 0, true⟩ with
    | none =>
        exact ⟨fatalMsg invalidReserveFmt [.str l], rfl,
          by rw [invalidReserveMsg_eq]; exact containsStr_middle _ _ l⟩
    | some st =>
        rcases (parseLoop_shape l _ _ hp).2 rfl with hall | ⟨a, b, rfl, ha, hb⟩
        · have hpl := parseLoop_hex l 0 0 true hall
          rw [hpl] at hp
          cases hp
          have hres : hexValList 0 l ≠ 0 := fun h0 => hnz ⟨hall, h0⟩
          show ∃ msg, (if hexValList 0 l ≠ 0 then
              Except.error (fatalMsg invalidReserveFmt [.str l]) else _) = .error msg ∧ _
          rw [if_pos hres]
          exact ⟨fatalMsg invalidReserveFmt [.str l], rfl,
            by rw [invalidReserveMsg_eq]; exact containsStr_middle _ _ l⟩
        · exact absurd ⟨a, b, rfl, ha, hb⟩ hnd

/-- Witness for claim C3's theorem at a concrete accepted string. -/
theorem preload_reserve_spec_witness :
    preload_reserve ("68000000-68010000".toList) 0x7d400000 0x7d800000 =
      .ok [(0x000000010000, 0x00100000), (0x000000110000, 0x67ef0000),
           (0x00007ff00000, 0x000f0000), (0x7ffffe000000, 0x01ff0000),
           (0x68000000, 0x10000), (0, 0)] := by
  have h := (preload_reserve_spec ("68000000-68010000".toList) 0x7d400000 0x7d800000).1
    ("68000000".toList) ("68010000".toList) (by decide) (by decide) (by decide)
    0x68000000 0x68010000 (by decide) (by decide) (by decide) (by decide) (by decide)
  simpa using h

/-- Counterexample to claim C3 as stated: the string `00` is neither of
the form `START-END` nor the single string `0`, so the claim requires a
fatal exit, but `preload_reserve` accepts it and records no range. -/
theorem preload_reserve_claim3_counterexample :
    preload_reserve ("00".toList) 0x7d400000 0x7d800000 = .ok preload_info_init
    ∧ wellFormedReserve ("00".toList) = false
    ∧ ("00".toList) ≠ ("0".toList) := by
  refine ⟨?_, by decide, by decide⟩
  rfl

/-- Claim C7: a well-formed user range that survives parsing is matched
against the static ranges whose base does not exceed the low-memory-area
boundary (the first two entries on x86-64).  If it partially overlaps such
a range — reaches past the range's end while starting below it — the
recorded start is pushed up to the end of a partially overlapped static
range (and at least to the end of every such range); if it lies completely
inside one of the low static ranges, it is discarded and recorded with
size 0. -/
theorem preload_reserve_low_truncation (a b : List Char) (pstart pend s e : Nat)
    (ha : ∀ c ∈ a, isHexDigit c = true) (hb : ∀ c ∈ b, isHexDigit c = true)
    (hs : s = roundDownPage (hexValList 0 a)) (he : e = roundUpPage (hexValList 0 b))
    (hse : s < e) (hover : ¬(e > pstart ∧ s ≤ pend)) :
    ∃ r : Nat × Nat,
      preload_reserve (a ++ '-' :: b) pstart pend =
        .ok [(0x000000010000, 0x00100000), (0x000000110000, 0x67ef0000),
             (0x00007ff00000, 0x000f0000), (0x7ffffe000000, 0x01ff0000), r, (0, 0)]
      ∧ (∀ i, i < 2 → s < lowLimit i → lowLimit i < e →
          r.2 = 0 ∨ (lowLimit i ≤ r.1 ∧
            ∃ j, j < 2 ∧ s < lowLimit j ∧ lowLimit j < e ∧ r.1 = lowLimit j))
      ∧ ((∃ i, i < 2 ∧ lowBase i ≤ s ∧ e ≤ lowLimit i) → r.2 = 0) := by
  have hl0 : lowLimit 0 = 0x110000 := by norm_num [lowLimit, lowBase, preload_info_init]
  have hl1 : lowLimit 1 = 0x68000000 := by norm_num [lowLimit, lowBase, preload_info_init]
  have hb0 : lowBase 0 = 0x10000 := by norm_num [lowBase, preload_info_init]
  have hb1 : lowBase 1 = 0x110000 := by norm_num [lowBase, preload_info_init]
  have hdash : parseStep ⟨hexValList 0 a, 0, true⟩ '-'
      = some ⟨0, roundDownPage (hexValList 0 a), false⟩ := by
    simp [parseStep]
  have hfull : parseLoop (a ++ '-' :: b) ⟨0, 0, true⟩
      = some ⟨hexValList 0 b, roundDownPage (hexValList 0 a), false⟩ := by
    rw [parseLoop_append, parseLoop_hex a 0 0 true ha]
    show parseLoop ('-' :: b) ⟨hexValList 0 a, 0, true⟩
        = some ⟨hexValList 0 b, roundDownPage (hexValList 0 a), false⟩
    simp only [parseLoop, hdash]
    exact parseLoop_hex b 0 _ false hb
  set q := low_scan preload_info_init s e with hq
  have hcases : q = (0, 0)
      ∨ (q = (0x68000000, e) ∧ s < 0x68000000 ∧ 0x68000000 < e)
      ∨ (q = (s, e) ∧ 0x68000000 ≤ s) := by
    rw [hq, low_scan_init]
    split_ifs with h1 h2 h3 h4 h5 <;> simp <;> omega
  refine ⟨(q.1, q.2 - q.1), ?_, ?_, ?_⟩
  · rw [preload_reserve, hfull]
    show Except.ok (preload_finish (roundDownPage (hexValList 0 a))
        (roundUpPage (hexValList 0 b)) pstart pend) = _
    rw [← hs, ← he]
    simp only [preload_finish]
    rw [if_neg (by omega), if_neg hover, ← hq, recordSlot_init]
  · intro i hi hilo hihi
    rcases hcases with h | ⟨h, hs68, he68⟩ | ⟨h, hs68⟩
    · left; simp [h]
    · right
      rw [h]
      refine ⟨?_, 1, by omega, ?_, ?_, ?_⟩
      · interval_cases i <;> omega
      · omega
      · omega
      · omega
    · exfalso
      interval_cases i <;> omega
  · rintro ⟨i, hi, hbase, hlim⟩
    rcases hcases with h | ⟨h, hs68, he68⟩ | ⟨h, hs68⟩
    · simp [h]
    · exfalso; interval_cases i <;> omega
    · exfalso; interval_cases i <;> omega

/-- Witness for claim C7's theorem: the range `67ff0000-69000000`
partially overlaps the low memory area and gets its start pushed up to
0x68000000. -/
theorem preload_reserve_low_truncation_witness :
    ∃ r : Nat × Nat,
      preload_reserve (("67ff0000-69000000").toList) 0x7d400000 0x7d800000 =
        .ok [(0x000000010000, 0x00100000), (0x000000110000, 0x67ef0000),
             (0x00007ff00000, 0x000f0000), (0x7ffffe000000, 0x01ff0000), r, (0, 0)]
      ∧ (∀ i, i < 2 → 0x67ff0000 < lowLimit i → lowLimit i < 0x69000000 →
          r.2 = 0 ∨ (lowLimit i ≤ r.1 ∧
            ∃ j, j < 2 ∧ 0x67ff0000 < lowLimit j ∧ lowLimit j < 0x69000000 ∧
              r.1 = lowLimit j))
      ∧ ((∃ i, i < 2 ∧ lowBase i ≤ 0x67ff0000 ∧ 0x69000000 ≤ lowLimit i) → r.2 = 0) := by
  exact preload_reserve_low_truncation ("67ff0000".toList) ("69000000".toList)
    0x7d400000 0x7d800000 0x67ff0000 0x69000000 (by decide) (by decide)
    (by decide) (by decide) (by decide) (by decide)

/-! ### Lemmas about `remove_preload_range` -/

lemma shiftTailAux_spec (z : Nat × Nat) (after : List (Nat × Nat)) (hz : z.2 = 0) :
    ∀ (rest : List (Nat × Nat)) (r : Nat × Nat), r.2 ≠ 0 → (∀ x ∈ rest, x.2 ≠ 0) →
      shiftTailAux (r :: (rest ++ z :: after)) = some (rest ++ z :: z :: after) := by
  intro rest
  induction rest with
  | nil =>
      intro r hr _
      obtain ⟨ra, rs⟩ := r
      obtain ⟨za, zs⟩ := z
      simp only at hr hz
      subst hz
      simp only [List.nil_append, shiftTailAux, if_neg hr]
      conv_lhs => rw [shiftTailAux.eq_def]
      simp
  | cons y ys ih =>
      intro r hr hall
      obtain ⟨ra, rs⟩ := r
      have hy : y.2 ≠ 0 := hall y (List.mem_cons_self y ys)
      have hys : ∀ x ∈ ys, x.2 ≠ 0 := fun x hx => hall x (List.mem_cons_of_mem y hx)
      have hrec := ih y hy hys
      simp only at hr
      simp only [List.cons_append, shiftTailAux, if_neg hr]
      have hrec2 : shiftTailAux (y :: List.append ys (z :: after))
          = some (ys ++ z :: z :: after) := hrec
      rw [hrec2]
      rfl

/-- Claim C9: `remove_preload_range i` on a zero-terminated list removes
the entry at position `i` by copying every following entry — terminator
included — one slot down: the entries keep their relative order and the
result is again zero-terminated (the old terminator cell keeps a stale
copy of the terminator, past the end of the list proper). -/
theorem remove_preload_range_spec (front rest after : List (Nat × Nat))
    (r z : Nat × Nat) (hr : r.2 ≠ 0) (hrest : ∀ x ∈ rest, x.2 ≠ 0) (hz : z.2 = 0) :
    remove_preload_range (front ++ r :: (rest ++ z :: after)) front.length
      = some (front ++ (rest ++ z :: z :: after)) := by
  unfold remove_preload_range
  rw [List.drop_left, List.take_left]
  rw [shiftTailAux_spec z after hz rest r hr hrest]
  rfl

/-- Witness for claim C9's theorem: removing the single live entry of a
two-slot list leaves the terminator in place. -/
theorem remove_preload_range_spec_witness :
    remove_preload_range [(0x500000, 0x1000), (0, 0)] 0 = some [(0, 0), (0, 0)] := by
  have h := remove_preload_range_spec [] [] [] (0x500000, 0x1000) (0, 0)
    (by decide) (by simp) (by decide)
  simpa using h

/-! ### Lemmas about `map_so_lib` -/

lemma countFileMmaps_append (a b : List MapEv) :
    countFileMmaps (a ++ b) = countFileMmaps a + countFileMmaps b := by
  simp [countFileMmaps, List.filter_append]

lemma isFileMmap_mprotect (a l p : Nat) : isFileMmap (MapEv.mprotect a l p) = false := rfl

lemma isFileMmap_memset0 (a l : Nat) : isFileMmap (MapEv.memset0 a l) = false := rfl

lemma isFileMmap_mmap (a l p : Nat) (fx fb : Bool) (o r : Nat) :
    isFileMmap (MapEv.mmap a l p fx fb o r) = fb := rfl

lemma countFileMmaps_zeroEvents (l_addr : Nat) (c : LoadCmd) :
    countFileMmaps (zeroEvents l_addr c) = 0 := by
  unfold zeroEvents countFileMmaps
  split_ifs <;> simp [List.filter_append, isFileMmap] <;>
    (intro a _ h
     rcases h with rfl | rfl | rfl <;> rfl)

lemma mapLoop_eq (e_phoff e_phnum l_addr : Nat) :
    ∀ (cs : List LoadCmd) (skip : Bool) (lm : LinkMap) (evs : List MapEv),
      mapLoop e_phoff e_phnum l_addr cs skip lm evs
        = (cs.foldl (fun l c => phdrFind e_phoff e_phnum l c) lm,
           evs ++ loopEvents l_addr cs skip) := by
  intro cs
  induction cs with
  | nil => intro skip lm evs; simp [mapLoop, loopEvents]
  | cons c rest ih =>
      intro skip lm evs
      simp only [mapLoop, loopEvents, ih, List.foldl_cons]
      by_cases h : ¬skip = true ∧ c.mapstart < c.mapend
      · rw [if_pos h, if_pos h]
        simp [List.append_assoc]
      · rw [if_neg h, if_neg h]
        simp [List.append_assoc]

lemma countFileMmaps_loopEvents (l_addr : Nat) :
    ∀ cs : List LoadCmd,
      countFileMmaps (loopEvents l_addr cs false)
        = cs.countP (fun c => decide (c.mapstart < c.mapend)) := by
  intro cs
  induction cs with
  | nil => simp [loopEvents, countFileMmaps]
  | cons c rest ih =>
      simp only [loopEvents, countFileMmaps_append, countFileMmaps_zeroEvents, ih,
        List.countP_cons]
      by_cases h : c.mapstart < c.mapend
      · simp [h, countFileMmaps, isFileMmap]
        omega
      · simp [h, countFileMmaps]

lemma foldl_phdrFind_l_addr (e_phoff e_phnum : Nat) :
    ∀ (cs : List LoadCmd) (lm : LinkMap),
      (cs.foldl (fun l c => phdrFind e_phoff e_phnum l c) lm).l_addr = lm.l_addr := by
  intro cs
  induction cs with
  | nil => intro lm; rfl
  | cons c rest ih =>
      intro lm
      rw [List.foldl_cons, ih]
      unfold phdrFind
      split <;> rfl

/-- Claim C8: `map_so_lib` reads the first 2 KiB of the file and exits
fatally with a specific message when the read comes back short, when the
four identification bytes are not `0x7f 'E' 'L' 'F'`, when the machine
type is not the build architecture (`EM_X86_64 = 62` here), when the
program-header count exceeds the 16-slot load-command buffer, or when the
program-header table does not fit inside the 2 KiB buffer.  Each clause
assumes the earlier checks passed, mirroring program order; the final
clause shows any of the five conditions is fatal. -/
theorem map_so_lib_header_validation (name : List Char) (f : ElfIn)
    (dynBase pstart pend : Nat) (hopen : f.openOk = true) :
    (f.fileSize < 2048 →
      map_so_lib name f dynBase pstart pend = .error (readFailMsg name, []))
    ∧ (2048 ≤ f.fileSize →
       ¬(f.ident0 = 0x7f ∧ f.ident1 = 69 ∧ f.ident2 = 76 ∧ f.ident3 = 70) →
       map_so_lib name f dynBase pstart pend = .error (badMagicMsg name, []))
    ∧ (2048 ≤ f.fileSize →
       (f.ident0 = 0x7f ∧ f.ident1 = 69 ∧ f.ident2 = 76 ∧ f.ident3 = 70) →
       f.e_machine ≠ 62 →
       map_so_lib name f dynBase pstart pend = .error (badMachineMsg name, []))
    ∧ (2048 ≤ f.fileSize →
       (f.ident0 = 0x7f ∧ f.ident1 = 69 ∧ f.ident2 = 76 ∧ f.ident3 = 70) →
       f.e_machine = 62 → 16 < f.e_phnum →
       map_so_lib name f dynBase pstart pend = .error (phnumMsg name, []))
    ∧ (2048 ≤ f.fileSize →
       (f.ident0 = 0x7f ∧ f.ident1 = 69 ∧ f.ident2 = 76 ∧ f.ident3 = 70) →
       f.e_machine = 62 → f.e_phnum ≤ 16 → 2048 < f.e_phoff + f.e_phnum * 56 →
       map_so_lib name f dynBase pstart pend = .error (phoffMsg name, []))
    ∧ ((f.fileSize < 2048 ∨
        ¬(f.ident0 = 0x7f ∧ f.ident1 = 69 ∧ f.ident2 = 76 ∧ f.ident3 = 70) ∨
        f.e_machine ≠ 62 ∨ 16 < f.e_phnum ∨ 2048 < f.e_phoff + f.e_phnum * 56) →
       ∃ m : List Char, map_so_lib name f dynBase pstart pend = .error (m, [])) := by
  have h1 : f.fileSize < 2048 →
      map_so_lib name f dynBase pstart pend = .error (readFailMsg name, []) := by
    intro h
    rw [map_so_lib, if_neg (by simp [hopen]), if_pos (by omega)]
  have h2 : 2048 ≤ f.fileSize →
      ¬(f.ident0 = 0x7f ∧ f.ident1 = 69 ∧ f.ident2 = 76 ∧ f.ident3 = 70) →
      map_so_lib name f dynBase pstart pend = .error (badMagicMsg name, []) := by
    intro h hm
    rw [map_so_lib, if_neg (by simp [hopen]), if_neg (by omega), if_pos hm]
  have h3 : 2048 ≤ f.fileSize →
      (f.ident0 = 0x7f ∧ f.ident1 = 69 ∧ f.ident2 = 76 ∧ f.ident3 = 70) →
      f.e_machine ≠ 62 →
      map_so_lib name f dynBase pstart pend = .error (badMachineMsg name, []) := by
    intro h hm hmach
    rw [map_so_lib, if_neg (by simp [hopen]), if_neg (by omega),
      if_neg (by simp [hm]), if_pos hmach]
  have h4 : 2048 ≤ f.fileSize →
      (f.ident0 = 0x7f ∧ f.ident1 = 69 ∧ f.ident2 = 76 ∧ f.ident3 = 70) →
      f.e_machine = 62 → 16 < f.e_phnum →
      map_so_lib name f dynBase pstart pend = .error (phnumMsg name, []) := by
    intro h hm hmach hn
    rw [map_so_lib, if_neg (by simp [hopen]), if_neg (by omega),
      if_neg (by simp [hm]), if_neg (by simp [hmach]), if_pos hn]
  have h5 : 2048 ≤ f.fileSize →
      (f.ident0 = 0x7f ∧ f.ident1 = 69 ∧ f.ident2 = 76 ∧ f.ident3 = 70) →
      f.e_machine = 62 → f.e_phnum ≤ 16 → 2048 < f.e_phoff + f.e_phnum * 56 →
      map_so_lib name f dynBase pstart pend = .error (phoffMsg name, []) := by
    intro h hm hmach hn ho
    rw [map_so_lib, if_neg (by simp [hopen]), if_neg (by omega),
      if_neg (by simp [hm]), if_neg (by simp [hmach]), if_neg (by omega), if_pos ho]
  refine ⟨h1, h2, h3, h4, h5, ?_⟩
  intro hd
  by_cases hs : f.fileSize < 2048
  · exact ⟨_, h1 hs⟩
  by_cases hm : f.ident0 = 0x7f ∧ f.ident1 = 69 ∧ f.ident2 = 76 ∧ f.ident3 = 70
  · by_cases hmach : f.e_machine = 62
    · by_cases hn : 16 < f.e_phnum
      · exact ⟨_, h4 (by omega) hm hmach hn⟩
      · by_cases ho : 2048 < f.e_phoff + f.e_phnum * 56
        · exact ⟨_, h5 (by omega) hm hmach (by omega) ho⟩
        · exfalso
          rcases hd with h | h | h | h | h
          · omega
          · exact h hm
          · exact h hmach
          · omega
          · omega
    · exact ⟨_, h3 (by omega) hm hmach⟩
  · exact ⟨_, h2 (by omega) hm⟩

/-- Witness for claim C8's theorem: a file whose magic bytes are wrong is
rejected with the bad-magic message. -/
theorem map_so_lib_header_validation_witness :
    map_so_lib ("t".toList)
      ⟨true, 2048, 0x7f, 69, 76, 71, 62, 3, 1, 64, 0, []⟩ 0 0 0
      = .error (badMagicMsg ("t".toList), []) := by
  exact (map_so_lib_header_validation ("t".toList)
    ⟨true, 2048, 0x7f, 69, 76, 71, 62, 3, 1, 64, 0, []⟩ 0 0 0 rfl).2.1
    (by decide) (by decide)

/-- The message of the ET_EXEC overlap error, in explicit form. -/
lemma overlapMsg_eq (name : List Char) (a b : Nat) :
    overlapMsg name a b
      = name ++ ((": binary overlaps preloader (".toList)
          ++ (toHexW 16 (a % U64) ++ ('-' :: (toHexW 16 (b % U64)
              ++ [')', '\n'])))) := by
  rfl

/-- Claim C5 (amended): a fixed-address object whose load region
`[mapstart, mapstart + extent)` overlaps the preloader extent (in the
inclusive sense tested by the code: `mapstart + extent > preloader_start`
and `mapstart <= preloader_end`) is fatal before any new mapping is
created (the error carries an empty event list), and the message written
to fd 2 contains the object's own range — both endpoints as printed by
`%p` — though not the preloader's range. -/
theorem map_so_lib_exec_overlap (name : List Char) (f : ElfIn)
    (dynBase pstart pend : Nat) (lm : LinkMap) (c0 : LoadCmd)
    (rest : List LoadCmd) (maplength : Nat)
    (hopen : f.openOk = true) (hsize : 2048 ≤ f.fileSize)
    (hmagic : f.ident0 = 0x7f ∧ f.ident1 = 69 ∧ f.ident2 = 76 ∧ f.ident3 = 70)
    (hmach : f.e_machine = 62) (hphnum : f.e_phnum ≤ 16)
    (hphoff : f.e_phoff + f.e_phnum * 56 ≤ 2048)
    (hscan : scanPhdrs name f.phdrs (initLinkMap f) [] = .ok (lm, c0 :: rest))
    (htype : f.e_type ≠ 3)
    (hml : maplength = (rest.getLastD c0).allocend - c0.mapstart)
    (hov : pstart < c0.mapstart + maplength ∧ c0.mapstart ≤ pend) :
    map_so_lib name f dynBase pstart pend
      = .error (overlapMsg name c0.mapstart (c0.mapstart + maplength), [])
    ∧ containsStr (overlapMsg name c0.mapstart (c0.mapstart + maplength))
        (toHexW 16 (c0.mapstart % U64)) = true
    ∧ containsStr (overlapMsg name c0.mapstart (c0.mapstart + maplength))
        (toHexW 16 ((c0.mapstart + maplength) % U64)) = true := by
  refine ⟨?_, ?_, ?_⟩
  · rw [map_so_lib, if_neg (by simp [hopen]), if_neg (by omega),
      if_neg (by simp [hmagic]), if_neg (by simp [hmach]), if_neg (by omega),
      if_neg (by omega), hscan]
    show (if f.e_type = 3 then _ else _) = _
    rw [if_neg htype, ← hml]
    rw [if_pos hov]
  · rw [overlapMsg_eq, ← List.append_assoc]
    exact containsStr_middle _ _ _
  · rw [overlapMsg_eq]
    have hshape : name ++ ((": binary overlaps preloader (".toList)
          ++ (toHexW 16 (c0.mapstart % U64)
              ++ ('-' :: (toHexW 16 ((c0.mapstart + maplength) % U64) ++ [')', '\n']))))
        = (name ++ (": binary overlaps preloader (".toList)
            ++ toHexW 16 (c0.mapstart % U64) ++ ['-'])
          ++ (toHexW 16 ((c0.mapstart + maplength) % U64) ++ [')', '\n']) := by
      simp [List.append_assoc]
    rw [hshape]
    exact containsStr_middle _ _ _

/-- Witness for claim C5's theorem: a one-segment ET_EXEC binary at
0x7bc01000 collides with a preloader at `[0x7bc00000, 0x7c000000]`. -/
theorem map_so_lib_exec_overlap_witness :
    map_so_lib ("t".toList)
        ⟨true, 2048, 0x7f, 69, 76, 70, 62, 2, 1, 64, 0x7bc01000,
         [⟨1, 0, 0x7bc01000, 0x3000, 0x3000, 0x1000, 5⟩]⟩ 0 0x7bc00000 0x7c000000
      = .error (overlapMsg ("t".toList) 0x7bc01000 (0x7bc01000 + 0x3000), [])
    ∧ containsStr (overlapMsg ("t".toList) 0x7bc01000 (0x7bc01000 + 0x3000))
        (toHexW 16 (0x7bc01000 % U64)) = true
    ∧ containsStr (overlapMsg ("t".toList) 0x7bc01000 (0x7bc01000 + 0x3000))
        (toHexW 16 ((0x7bc01000 + 0x3000) % U64)) = true := by
  exact map_so_lib_exec_overlap ("t".toList)
    ⟨true, 2048, 0x7f, 69, 76, 70, 62, 2, 1, 64, 0x7bc01000,
     [⟨1, 0, 0x7bc01000, 0x3000, 0x3000, 0x1000, 5⟩]⟩ 0 0x7bc00000 0x7c000000
    (initLinkMap ⟨true, 2048, 0x7f, 69, 76, 70, 62, 2, 1, 64, 0x7bc01000,
     [⟨1, 0, 0x7bc01000, 0x3000, 0x3000, 0x1000, 5⟩]⟩)
    ⟨0x7bc01000, 0x7bc04000, 0x7bc04000, 0x7bc04000, 0, 5⟩ [] 0x3000
    rfl (by decide) (by decide) (by decide) (by decide) (by decide)
    (by rfl) (by decide) (by decide) (by decide)

/-- Counterexample to claim C5 as stated: the fatal message of the
ET_EXEC overlap check prints only the binary's own range; the hex digits
of neither preloader endpoint (`0x7bc00000`, `0x7c000000`, as `%p` would
print them) appear in it, so the message does not contain both ranges. -/
theorem map_so_lib_claim5_counterexample :
    map_so_lib ("t".toList)
        ⟨true, 2048, 0x7f, 69, 76, 70, 62, 2, 1, 64, 0x7bc01000,
         [⟨1, 0, 0x7bc01000, 0x3000, 0x3000, 0x1000, 5⟩]⟩ 0 0x7bc00000 0x7c000000
      = .error (overlapMsg ("t".toList) 0x7bc01000 0x7bc04000, [])
    ∧ containsStr (overlapMsg ("t".toList) 0x7bc01000 0x7bc04000)
        (toHexW 16 0x7bc00000) = false
    ∧ containsStr (overlapMsg ("t".toList) 0x7bc01000 0x7bc04000)
        (toHexW 16 0x7c000000) = false := by
  refine ⟨rfl, ?_, ?_⟩ <;> decide

/-- Counterexample to claim C1 as stated: for an ET_DYN object with two
PT_LOAD commands, `map_so_lib` performs two file-backed mappings — the
whole-extent one plus a `MAP_FIXED` re-mapping of the second load
command — not a single one. -/
theorem map_so_lib_claim1_counterexample :
    (map_so_lib ("t".toList) dyn2Elf 0x555555000000 0x7bc00000 0x7c000000).map
        (fun r => countFileMmaps r.2) = .ok 2
    ∧ dyn2Elf.e_type = 3 := by
  exact ⟨rfl, rfl⟩

/-- Claim C1 (amended): for a position-independent (ET_DYN) object,
`map_so_lib` performs a single non-fixed private file mapping of the
whole extent (last load command's `allocend` minus the first's
`mapstart`), derives the load bias from the address the kernel returns,
and no-access-protects the tail; the first load command then inherits the
big mapping (only tail-zeroing events), but every remaining load command
with `mapend > mapstart` is mapped again with a `MAP_FIXED` private file
mapping at its biased address, before its tail-zeroing.  The number of
file-backed mappings is one plus the number of such re-mapped commands. -/
theorem map_so_lib_dyn_spec (name : List Char) (f : ElfIn)
    (dynBase pstart pend : Nat) (lm : LinkMap) (c0 : LoadCmd)
    (rest : List LoadCmd) (maplength l_addr : Nat)
    (hopen : f.openOk = true) (hsize : 2048 ≤ f.fileSize)
    (hmagic : f.ident0 = 0x7f ∧ f.ident1 = 69 ∧ f.ident2 = 76 ∧ f.ident3 = 70)
    (hmach : f.e_machine = 62) (hphnum : f.e_phnum ≤ 16)
    (hphoff : f.e_phoff + f.e_phnum * 56 ≤ 2048)
    (hscan : scanPhdrs name f.phdrs (initLinkMap f) [] = .ok (lm, c0 :: rest))
    (htype : f.e_type = 3)
    (hml : maplength = (rest.getLastD c0).allocend - c0.mapstart)
    (hla : l_addr = dynBase - c0.mapstart)
    (hfound : ((c0 :: rest).foldl
        (fun l c => phdrFind f.e_phoff f.e_phnum l c)
        { lm with
            l_map_start := dynBase
            l_map_end := dynBase + maplength
            l_addr := l_addr }).l_phdr ≠ 0) :
    ∃ (lmF : LinkMap) (evs : List MapEv),
      map_so_lib name f dynBase pstart pend = .ok (lmF, evs)
      ∧ evs = [MapEv.mmap c0.mapstart maplength c0.prot false true c0.mapoff dynBase,
               MapEv.mprotect (l_addr + c0.mapend)
                 ((rest.getLastD c0).allocend - c0.mapend) 0]
              ++ (zeroEvents l_addr c0 ++ loopEvents l_addr rest false)
      ∧ countFileMmaps evs = 1 + rest.countP (fun c => decide (c.mapstart < c.mapend))
      ∧ lmF.l_addr = dynBase - c0.mapstart := by
  subst hml
  subst hla
  set lmBig : LinkMap := { lm with
      l_map_start := dynBase
      l_map_end := dynBase + ((rest.getLastD c0).allocend - c0.mapstart)
      l_addr := dynBase - c0.mapstart } with hlmBig
  set F : LinkMap := (c0 :: rest).foldl
      (fun l c => phdrFind f.e_phoff f.e_phnum l c) lmBig with hF
  refine ⟨{ F with
      l_phdr := F.l_phdr + F.l_addr
      l_entry := F.l_entry + F.l_addr },
    [MapEv.mmap c0.mapstart ((rest.getLastD c0).allocend - c0.mapstart) c0.prot
       false true c0.mapoff dynBase,
     MapEv.mprotect ((dynBase - c0.mapstart) + c0.mapend)
       ((rest.getLastD c0).allocend - c0.mapend) 0]
      ++ (zeroEvents (dynBase - c0.mapstart) c0
          ++ loopEvents (dynBase - c0.mapstart) rest false), ?_, rfl, ?_, ?_⟩
  · rw [map_so_lib, if_neg (by simp [hopen]), if_neg (by omega),
      if_neg (by simp [hmagic]), if_neg (by simp [hmach]), if_neg (by omega),
      if_neg (by omega), hscan]
    show (if f.e_type = 3 then _ else _) = _
    rw [if_pos htype]
    show finishMap
        (mapLoop f.e_phoff f.e_phnum (dynBase - c0.mapstart) (c0 :: rest) true lmBig
          [MapEv.mmap c0.mapstart ((rest.getLastD c0).allocend - c0.mapstart) c0.prot
             false true c0.mapoff dynBase,
           MapEv.mprotect ((dynBase - c0.mapstart) + c0.mapend)
             ((rest.getLastD c0).allocend - c0.mapend) 0]).1
        (mapLoop f.e_phoff f.e_phnum (dynBase - c0.mapstart) (c0 :: rest) true lmBig
          [MapEv.mmap c0.mapstart ((rest.getLastD c0).allocend - c0.mapstart) c0.prot
             false true c0.mapoff dynBase,
           MapEv.mprotect ((dynBase - c0.mapstart) + c0.mapend)
             ((rest.getLastD c0).allocend - c0.mapend) 0]).2 = _
    rw [mapLoop_eq]
    unfold finishMap
    rw [if_neg hfound]
    rw [show loopEvents (dynBase - c0.mapstart) (c0 :: rest) true
        = zeroEvents (dynBase - c0.mapstart) c0
          ++ loopEvents (dynBase - c0.mapstart) rest false from by
      simp [loopEvents]]
  · rw [countFileMmaps_append, countFileMmaps_append, countFileMmaps_zeroEvents,
      countFileMmaps_loopEvents]
    simp [countFileMmaps, List.filter, isFileMmap_mmap, isFileMmap_mprotect]
  · show F.l_addr = dynBase - c0.mapstart
    rw [hF, foldl_phdrFind_l_addr]

/-! ### Lemmas about `find_symbol` -/

lemma wld_strcmp_eq_zero : ∀ (a b : List Char), (∀ c ∈ a, c.toNat ≠ 0) →
    (∀ c ∈ b, c.toNat ≠ 0) → (wld_strcmp a b = 0 ↔ a = b) := by
  intro a
  induction a with
  | nil =>
      intro b _ hb
      cases b with
      | nil => simp [wld_strcmp]
      | cons c2 r2 =>
          simp only [wld_strcmp]
          constructor
          · intro h
            exfalso
            have := hb c2 (List.mem_cons_self c2 r2)
            omega
          · intro h
            cases h
  | cons c1 r1 ih =>
      intro b ha hb
      cases b with
      | nil =>
          simp only [wld_strcmp]
          constructor
          · intro h
            exfalso
            have := ha c1 (List.mem_cons_self c1 r1)
            omega
          · intro h
            cases h
      | cons c2 r2 =>
          simp only [wld_strcmp]
          by_cases hc : c1 = c2
          · rw [if_pos hc,
              ih r2 (fun c hc' => ha c (List.mem_cons_of_mem c1 hc'))
                (fun c hc' => hb c (List.mem_cons_of_mem c2 hc'))]
            subst hc
            simp
          · rw [if_neg hc]
            constructor
            · intro h
              exfalso
              apply hc
              have h2 : c1.toNat = c2.toNat := by omega
              exact Char.ext (UInt32.ext h2)
            · intro h
              injection h with h1 _
              exact absurd h1 hc

lemma cstrAt_ne_nul (tab : List Char) (off : Nat) :
    ∀ c ∈ cstrAt tab off, c.toNat ≠ 0 := by
  intro c hc
  have := List.mem_takeWhile_imp hc
  simpa using this

lemma not_symMatches_of_ge (img : SymImage) (var : List Char) (typ j : Nat)
    (hj : nsyms img ≤ j) : ¬ symMatches img var typ j := by
  unfold symMatches symAt
  rw [List.getD_eq_default _ _ hj]
  simp

lemma gnuLookupLoop_none (img : SymImage) (var : List Char) (typ E : Nat) :
    ∀ fuel start, E - start < fuel → start ≤ E →
      (∃ e, start ≤ e ∧ e ≤ E ∧ gnuChain img.gnuTab e % 2 = 1) →
      (∀ j, start ≤ j → j ≤ E →
        ¬(clearLow1 (gnuChain img.gnuTab j) = clearLow1 (gnu_hash var)
          ∧ symMatches img var typ j)) →
      gnuLookupLoop img var typ fuel start = some none := by
  intro fuel
  induction fuel with
  | zero => intro start h; omega
  | succ f ih =>
      intro start hf hse hex hnm
      rw [gnuLookupLoop, if_neg (hnm start le_rfl hse)]
      by_cases hodd : gnuChain img.gnuTab start % 2 = 1
      · rw [if_pos hodd]
      · rw [if_neg hodd]
        obtain ⟨e, he1, he2, he3⟩ := hex
        have hne : start ≠ e := fun h => hodd (h ▸ he3)
        exact ih (start + 1) (by omega) (by omega) ⟨e, by omega, he2, he3⟩
          (fun j h1 h2 => hnm j (by omega) h2)

lemma gnuLookupLoop_found (img : SymImage) (var : List Char) (typ m : Nat)
    (hfull : clearLow1 (gnuChain img.gnuTab m) = clearLow1 (gnu_hash var)
      ∧ symMatches img var typ m)
    (huniq : ∀ j, clearLow1 (gnuChain img.gnuTab j) = clearLow1 (gnu_hash var)
      ∧ symMatches img var typ j → j = m) :
    ∀ fuel start, m - start < fuel → start ≤ m →
      (∀ j, start ≤ j → j < m → gnuChain img.gnuTab j % 2 = 0) →
      gnuLookupLoop img var typ fuel start = some (some m) := by
  intro fuel
  induction fuel with
  | zero => intro start h; omega
  | succ f ih =>
      intro start hf hsm heven
      rw [gnuLookupLoop]
      by_cases hcond : clearLow1 (gnuChain img.gnuTab start) = clearLow1 (gnu_hash var)
          ∧ symMatches img var typ start
      · rw [if_pos hcond, huniq start hcond]
      · rw [if_neg hcond]
        have hne : start ≠ m := fun h => hcond (h ▸ hfull)
        have hlt : start < m := by omega
        rw [if_neg (by have := heven start le_rfl hlt; omega)]
        exact ih (start + 1) (by omega) (by omega)
          (fun j h1 h2 => heven j (by omega) h2)

lemma elfIter_succ (t : List Nat) (k idx : Nat) :
    elfIter t (k + 1) idx = elfIter t k (elfChainAt t idx) := rfl

lemma elfLookupLoop_none (img : SymImage) (var : List Char) (typ : Nat) :
    ∀ k0 start, elfIter img.elfTab k0 start = 0 →
      (∀ k, k < k0 → ¬ symMatches img var typ (elfIter img.elfTab k start)) →
      ∀ fuel, k0 < fuel → elfLookupLoop img var typ fuel start = some none := by
  intro k0
  induction k0 with
  | zero =>
      intro start h0 _ fuel hf
      cases fuel with
      | zero => omega
      | succ f =>
          have hz : start = 0 := h0
          rw [elfLookupLoop, if_pos hz]
  | succ k ih =>
      intro start h0 hnm fuel hf
      cases fuel with
      | zero => omega
      | succ f =>
          rw [elfLookupLoop]
          by_cases hz : start = 0
          · rw [if_pos hz]
          · rw [if_neg hz, if_neg (by have := hnm 0 (by omega); exact this)]
            exact ih (elfChainAt img.elfTab start) h0
              (fun k' hk' => hnm (k' + 1) (by omega)) f (by omega)

lemma elfLookupLoop_found (img : SymImage) (var : List Char) (typ m : Nat)
    (hm : symMatches img var typ m) (hm0 : m ≠ 0)
    (huniq : ∀ j, symMatches img var typ j → j = m) :
    ∀ km start, elfIter img.elfTab km start = m →
      (∀ k, k < km → elfIter img.elfTab k start ≠ 0) →
      ∀ fuel, km < fuel → elfLookupLoop img var typ fuel start = some (some m) := by
  intro km
  induction km with
  | zero =>
      intro start h0 _ fuel hf
      cases fuel with
      | zero => omega
      | succ f =>
          have hsm : start = m := h0
          subst hsm
          rw [elfLookupLoop, if_neg hm0, if_pos hm]
  | succ k ih =>
      intro start h0 hnz fuel hf
      cases fuel with
      | zero => omega
      | succ f =>
          rw [elfLookupLoop]
          have h1 : start ≠ 0 := hnz 0 (by omega)
          rw [if_neg h1]
          by_cases hms : symMatches img var typ start
          · rw [if_pos hms, huniq start hms]
          · rw [if_neg hms]
            exact ih (elfChainAt img.elfTab start) h0
              (fun k' hk' => hnz (k' + 1) (by omega)) f (by omega)

lemma dynHas_filter_ne (dyn : List (Nat × Nat)) (tag : Nat)
    (htag : tag ≠ 0x6ffffef5) :
    dynHas (dyn.filter (fun d => d.1 ≠ 0x6ffffef5)) tag = dynHas dyn tag := by
  induction dyn with
  | nil => rfl
  | cons d rest ih =>
      obtain ⟨t, v⟩ := d
      by_cases hd : t = 0x6ffffef5
      · subst hd
        rw [List.filter_cons, if_neg (by simp), ih]
        have hrhs : dynHas ((0x6ffffef5, v) :: rest) tag = dynHas rest tag := by
          show (if (0x6ffffef5 : Nat) = 0 then false
              else if (0x6ffffef5 : Nat) = tag then true else dynHas rest tag)
            = dynHas rest tag
          rw [if_neg (by norm_num), if_neg (fun h => htag h.symm)]
        rw [hrhs]
      · rw [List.filter_cons, if_pos (by simpa using hd)]
        show dynHas ((t, v) :: _) tag = dynHas ((t, v) :: rest) tag
        unfold dynHas
        by_cases ht0 : t = 0
        · rw [if_pos ht0, if_pos ht0]
        · rw [if_neg ht0, if_neg ht0]
          by_cases htt : t = tag
          · rw [if_pos htt, if_pos htt]
          · rw [if_neg htt, if_neg htt, ih]

lemma dynHas_filter_gnu (dyn : List (Nat × Nat)) :
    dynHas (dyn.filter (fun d => d.1 ≠ 0x6ffffef5)) 0x6ffffef5 = false := by
  induction dyn with
  | nil => rfl
  | cons d rest ih =>
      obtain ⟨t, v⟩ := d
      by_cases hd : t = 0x6ffffef5
      · subst hd
        rw [List.filter_cons, if_neg (by simp)]
        exact ih
      · rw [List.filter_cons, if_pos (by simpa using hd)]
        show dynHas ((t, v) :: _) _ = false
        unfold dynHas
        by_cases ht0 : t = 0
        · rw [if_pos ht0]
        · rw [if_neg ht0, if_neg hd, ih]

lemma find_symbol_gnu_found (img : SymImage) (var : List Char) (typ : Nat)
    (hvar : ∀ c ∈ var, c.toNat ≠ 0)
    (hph : (img.phdrs.find? (fun p => p.1 = 2)).isNone = false)
    (hsym : dynHas img.dyn 6 = true) (hstr : dynHas img.dyn 5 = true)
    (hgnu : dynHas img.dyn 0x6ffffef5 = true) (hwf : gnuWF img)
    (m : Nat) (hm : m < nsyms img) (hsb : gnuSymbias img.gnuTab ≤ m)
    (hmm : symMatches img var typ m)
    (huniq : ∀ j, j < nsyms img → symMatches img var typ j → j = m) :
    find_symbol img var typ (nsyms img + 1)
      = some (some ((symAt img m).st_value + img.l_addr)) := by
  obtain ⟨hn, hsb1, hchain, hreach, hterm⟩ := hwf
  have hname : symNameAt img m = var :=
    (wld_strcmp_eq_zero _ _ (cstrAt_ne_nul _ _) hvar).1 hmm.2.2
  obtain ⟨hb0, hbm, heven⟩ := hreach m hm hsb
  rw [hname] at hb0 hbm heven
  rw [find_symbol, if_neg (by simp [hph]), if_neg (by simp [hsym, hstr]),
    if_pos hgnu]
  show (if gnuBucket img.gnuTab (gnu_hash var % gnuNBuckets img.gnuTab) = 0
      then _ else _) = _
  rw [if_neg hb0]
  have hfull : clearLow1 (gnuChain img.gnuTab m) = clearLow1 (gnu_hash var)
      ∧ symMatches img var typ m := ⟨by rw [hchain m hm hsb, hname], hmm⟩
  have huniq' : ∀ j, clearLow1 (gnuChain img.gnuTab j) = clearLow1 (gnu_hash var)
      ∧ symMatches img var typ j → j = m := by
    intro j hj
    by_cases hlt : j < nsyms img
    · exact huniq j hlt hj.2
    · exact absurd hj.2 (not_symMatches_of_ge img var typ j (by omega))
  rw [gnuLookupLoop_found img var typ m hfull huniq' (nsyms img + 1) _
    (by omega) hbm heven]
  rfl

lemma find_symbol_gnu_none (img : SymImage) (var : List Char) (typ : Nat)
    (hph : (img.phdrs.find? (fun p => p.1 = 2)).isNone = false)
    (hsym : dynHas img.dyn 6 = true) (hstr : dynHas img.dyn 5 = true)
    (hgnu : dynHas img.dyn 0x6ffffef5 = true) (hwf : gnuWF img)
    (hno : ∀ j, j < nsyms img → ¬ symMatches img var typ j) :
    find_symbol img var typ (nsyms img + 1) = some none := by
  obtain ⟨hn, hsb1, hchain, hreach, hterm⟩ := hwf
  rw [find_symbol, if_neg (by simp [hph]), if_neg (by simp [hsym, hstr]),
    if_pos hgnu]
  show (if gnuBucket img.gnuTab (gnu_hash var % gnuNBuckets img.gnuTab) = 0
      then _ else _) = _
  by_cases hb : gnuBucket img.gnuTab (gnu_hash var % gnuNBuckets img.gnuTab) = 0
  · rw [if_pos hb]
  · rw [if_neg hb]
    obtain ⟨hsb2, e, he, hbe, hodd⟩ :=
      hterm (gnu_hash var % gnuNBuckets img.gnuTab) (Nat.mod_lt _ hn) hb
    rw [gnuLookupLoop_none img var typ e (nsyms img + 1) _ (by omega) hbe
      ⟨e, hbe, le_rfl, hodd⟩ ?_]
    · rfl
    · intro j h1 h2 hj
      exact hno j (by omega) hj.2

lemma find_symbol_elf_found (img : SymImage) (var : List Char) (typ : Nat)
    (hvar : ∀ c ∈ var, c.toNat ≠ 0)
    (hph : (img.phdrs.find? (fun p => p.1 = 2)).isNone = false)
    (hsym : dynHas img.dyn 6 = true) (hstr : dynHas img.dyn 5 = true)
    (hgnu : dynHas img.dyn 0x6ffffef5 = false) (helf : dynHas img.dyn 4 = true)
    (hwf : elfWF img)
    (m : Nat) (hm : m < nsyms img) (hm1 : 1 ≤ m)
    (hmm : symMatches img var typ m)
    (huniq : ∀ j, j < nsyms img → symMatches img var typ j → j = m) :
    find_symbol img var typ (nsyms img + 1)
      = some (some ((symAt img m).st_value + img.l_addr)) := by
  obtain ⟨hn, hwf2⟩ := hwf
  have hname : symNameAt img m = var :=
    (wld_strcmp_eq_zero _ _ (cstrAt_ne_nul _ _) hvar).1 hmm.2.2
  obtain ⟨k0, hk0, hterm, hbound, hreach⟩ :=
    hwf2 (wld_elf_hash var % elfNBuckets img.elfTab) (Nat.mod_lt _ hn)
  obtain ⟨km, hkm, hit⟩ := hreach m hm hm1 (by rw [hname])
  rw [find_symbol, if_neg (by simp [hph]), if_neg (by simp [hsym, hstr]),
    if_neg (by simp [hgnu]), if_pos helf]
  have huniq' : ∀ j, symMatches img var typ j → j = m := by
    intro j hj
    by_cases hlt : j < nsyms img
    · exact huniq j hlt hj
    · exact absurd hj (not_symMatches_of_ge img var typ j (by omega))
  rw [elfLookupLoop_found img var typ m hmm (by omega) huniq' km _ hit
    (fun k hk => by have := hbound k (by omega); omega) (nsyms img + 1) (by omega)]
  rfl

lemma find_symbol_elf_none (img : SymImage) (var : List Char) (typ : Nat)
    (hph : (img.phdrs.find? (fun p => p.1 = 2)).isNone = false)
    (hsym : dynHas img.dyn 6 = true) (hstr : dynHas img.dyn 5 = true)
    (hgnu : dynHas img.dyn 0x6ffffef5 = false) (helf : dynHas img.dyn 4 = true)
    (hwf : elfWF img)
    (hno : ∀ j, j < nsyms img → ¬ symMatches img var typ j) :
    find_symbol img var typ (nsyms img + 1) = some none := by
  obtain ⟨hn, hwf2⟩ := hwf
  obtain ⟨k0, hk0, hterm, hbound, _⟩ :=
    hwf2 (wld_elf_hash var % elfNBuckets img.elfTab) (Nat.mod_lt _ hn)
  rw [find_symbol, if_neg (by simp [hph]), if_neg (by simp [hsym, hstr]),
    if_neg (by simp [hgnu]), if_pos helf]
  rw [elfLookupLoop_none img var typ k0 _ hterm
    (fun k hk => by
      have := hbound k hk
      exact hno _ this.2) (nsyms img + 1) (by omega)]
  rfl

/-- Claim C4: `find_symbol` returns `st_value + l_addr` for a present
global symbol of the requested type, returns a null result when the name
is absent or when the dynamic section, symbol table or string table is
missing, and — when the classical and the GNU hash table both correctly
index the same symbol table — the result is the same whichever of the
two tables the lookup uses (the GNU table is preferred when its
`DT_GNU_HASH` tag is present; stripping that tag switches the lookup to
the classical table). -/
theorem find_symbol_spec (img : SymImage) (var : List Char) (typ : Nat)
    (hvar : ∀ c ∈ var, c.toNat ≠ 0) :
    ((img.phdrs.find? (fun p => p.1 = 2)).isNone = true →
      find_symbol img var typ (nsyms img + 1) = some none)
    ∧ (¬(dynHas img.dyn 6 = true ∧ dynHas img.dyn 5 = true) →
      find_symbol img var typ (nsyms img + 1) = some none)
    ∧ ((img.phdrs.find? (fun p => p.1 = 2)).isNone = false →
       dynHas img.dyn 6 = true → dynHas img.dyn 5 = true →
       dynHas img.dyn 0x6ffffef5 = true → gnuWF img →
        (∀ m, m < nsyms img → gnuSymbias img.gnuTab ≤ m →
          symMatches img var typ m →
          (∀ j, j < nsyms img → symMatches img var typ j → j = m) →
          find_symbol img var typ (nsyms img + 1)
            = some (some ((symAt img m).st_value + img.l_addr)))
        ∧ ((∀ j, j < nsyms img → ¬ symMatches img var typ j) →
          find_symbol img var typ (nsyms img + 1) = some none))
    ∧ ((img.phdrs.find? (fun p => p.1 = 2)).isNone = false →
       dynHas img.dyn 6 = true → dynHas img.dyn 5 = true →
       dynHas img.dyn 0x6ffffef5 = false → dynHas img.dyn 4 = true → elfWF img →
        (∀ m, m < nsyms img → 1 ≤ m → symMatches img var typ m →
          (∀ j, j < nsyms img → symMatches img var typ j → j = m) →
          find_symbol img var typ (nsyms img + 1)
            = some (some ((symAt img m).st_value + img.l_addr)))
        ∧ ((∀ j, j < nsyms img → ¬ symMatches img var typ j) →
          find_symbol img var typ (nsyms img + 1) = some none))
    ∧ ((img.phdrs.find? (fun p => p.1 = 2)).isNone = false →
       dynHas img.dyn 6 = true → dynHas img.dyn 5 = true →
       dynHas img.dyn 0x6ffffef5 = true → dynHas img.dyn 4 = true →
       gnuWF img → elfWF img →
       (∀ j, j < nsyms img → ∀ k, k < nsyms img → symMatches img var typ j →
         symMatches img var typ k → j = k) →
       (∀ j, j < nsyms img → symMatches img var typ j →
         1 ≤ j ∧ gnuSymbias img.gnuTab ≤ j) →
       find_symbol img var typ (nsyms img + 1)
         = find_symbol (stripGnu img) var typ (nsyms (stripGnu img) + 1)) := by
  refine ⟨?_, ?_, ?_, ?_, ?_⟩
  · intro h
    rw [find_symbol, if_pos h]
  · intro h
    rw [find_symbol]
    by_cases hph : (img.phdrs.find? (fun p => p.1 = 2)).isNone = true
    · rw [if_pos hph]
    · rw [if_neg hph, if_pos h]
  · intro hph hsym hstr hgnu hwf
    exact ⟨fun m hm hsb hmm huniq =>
        find_symbol_gnu_found img var typ hvar hph hsym hstr hgnu hwf
          m hm hsb hmm huniq,
      fun hno => find_symbol_gnu_none img var typ hph hsym hstr hgnu hwf hno⟩
  · intro hph hsym hstr hgnu helf hwf
    exact ⟨fun m hm hm1 hmm huniq =>
        find_symbol_elf_found img var typ hvar hph hsym hstr hgnu helf hwf
          m hm hm1 hmm huniq,
      fun hno => find_symbol_elf_none img var typ hph hsym hstr hgnu helf hwf hno⟩
  · intro hph hsym hstr hgnu helf hwfg hwfe hpair hidx
    have hph' : ((stripGnu img).phdrs.find? (fun p => p.1 = 2)).isNone = false := hph
    have hsym' : dynHas (stripGnu img).dyn 6 = true := by
      show dynHas (img.dyn.filter _) 6 = true
      rw [dynHas_filter_ne img.dyn 6 (by norm_num)]
      exact hsym
    have hstr' : dynHas (stripGnu img).dyn 5 = true := by
      show dynHas (img.dyn.filter _) 5 = true
      rw [dynHas_filter_ne img.dyn 5 (by norm_num)]
      exact hstr
    have helf' : dynHas (stripGnu img).dyn 4 = true := by
      show dynHas (img.dyn.filter _) 4 = true
      rw [dynHas_filter_ne img.dyn 4 (by norm_num)]
      exact helf
    have hgnu' : dynHas (stripGnu img).dyn 0x6ffffef5 = false :=
      dynHas_filter_gnu img.dyn
    have hwfe' : elfWF (stripGnu img) := hwfe
    by_cases hex : ∃ m, m < nsyms img ∧ symMatches img var typ m
    · obtain ⟨m, hm, hmm⟩ := hex
      obtain ⟨hm1, hsb⟩ := hidx m hm hmm
      have huniq : ∀ j, j < nsyms img → symMatches img var typ j → j = m :=
        fun j hj hjm => hpair j hj m hm hjm hmm
      have hmm' : symMatches (stripGnu img) var typ m := hmm
      have huniq' : ∀ j, j < nsyms (stripGnu img) →
          symMatches (stripGnu img) var typ j → j = m := huniq
      rw [find_symbol_gnu_found img var typ hvar hph hsym hstr hgnu hwfg
        m hm hsb hmm huniq]
      rw [find_symbol_elf_found (stripGnu img) var typ hvar hph' hsym' hstr'
        hgnu' helf' hwfe' m hm hm1 hmm' huniq']
      rfl
    · push_neg at hex
      have hno : ∀ j, j < nsyms img → ¬ symMatches img var typ j := hex
      have hno' : ∀ j, j < nsyms (stripGnu img) →
          ¬ symMatches (stripGnu img) var typ j := hno
      rw [find_symbol_gnu_none img var typ hph hsym hstr hgnu hwfg hno]
      rw [find_symbol_elf_none (stripGnu img) var typ hph' hsym' hstr'
        hgnu' helf' hwfe' hno']

/-- Witness for claim C4's theorem: the lookup finds `ab` at
`st_value + l_addr`, and the GNU and classical tables agree. -/
theorem find_symbol_spec_witness :
    find_symbol symImgW (['a', 'b']) 1 (nsyms symImgW + 1)
      = some (some (0x100 + 0x7000))
    ∧ find_symbol symImgW (['a', 'b']) 1 (nsyms symImgW + 1)
      = find_symbol (stripGnu symImgW) (['a', 'b']) 1 (nsyms (stripGnu symImgW) + 1) := by
  constructor
  · exact ((find_symbol_spec symImgW (['a', 'b']) 1 (by decide)).2.2.1
      (by decide) (by decide) (by decide) (by decide) (by decide)).1
      1 (by decide) (by decide) (by decide)
      (by decide)
  · exact (find_symbol_spec symImgW (['a', 'b']) 1 (by decide)).2.2.2.2
      (by decide) (by decide) (by decide) (by decide) (by decide)
      (by decide) (by decide) (by decide) (by decide)

/-- Witness for claim C1's amended theorem at the two-segment input. -/
theorem map_so_lib_dyn_spec_witness :
    ∃ (lmF : LinkMap) (evs : List MapEv),
      map_so_lib ("t".toList) dyn2Elf 0x555555000000 0x7bc00000 0x7c000000
        = .ok (lmF, evs)
      ∧ evs = [MapEv.mmap 0 0x3000 5 false true 0 0x555555000000,
               MapEv.mprotect (0x555555000000 + 0x1000) (0x3000 - 0x1000) 0]
              ++ (zeroEvents 0x555555000000 ⟨0, 0x1000, 0x1000, 0x1000, 0, 5⟩
                  ++ loopEvents 0x555555000000 [⟨0x2000, 0x3000, 0x3000, 0x3000, 0x1000, 3⟩] false)
      ∧ countFileMmaps evs
          = 1 + List.countP (fun c => decide (c.mapstart < c.mapend))
                  [(⟨0x2000, 0x3000, 0x3000, 0x3000, 0x1000, 3⟩ : LoadCmd)]
      ∧ lmF.l_addr = 0x555555000000 - 0 := by
  exact map_so_lib_dyn_spec ("t".toList) dyn2Elf 0x555555000000 0x7bc00000 0x7c000000
    (initLinkMap dyn2Elf) ⟨0, 0x1000, 0x1000, 0x1000, 0, 5⟩
    [⟨0x2000, 0x3000, 0x3000, 0x3000, 0x1000, 3⟩] 0x3000 0x555555000000
    rfl (by decide) (by decide) (by decide) (by decide) (by decide)
    (by rfl) (by decide) (by decide) (by decide) (by decide)

/-! ### Lemmas about the auxiliary-vector model -/

/-- Reading after a write: hit iff the byte addresses fall in the same
word. -/
theorem wordGet_wordSet (m : Mem) (a v b : Nat) :
    wordGet (wordSet m a v) b = if b / 8 = a / 8 then v else wordGet m b := rfl

/-- `find?` only depends on the predicate's values on the list. -/
theorem find_congr {α : Type} {p q : α → Bool} :
    ∀ (l : List α), (∀ x ∈ l, p x = q x) → l.find? p = l.find? q := by
  intro l h
  induction l with
  | nil => rfl
  | cons a t ih =>
    simp only [List.find?_cons, h a (List.mem_cons_self a t)]
    cases hq : q a
    · exact ih (fun x hx => h x (List.mem_cons_of_mem a hx))
    · rfl

/-- Under the representation invariant the memory-level search agrees
with the list-level search. -/
theorem findIdx_repr (m : Mem) (avB : Nat) (L : List (Nat × Nat)) (tag : Nat)
    (h : avRepr m avB L) :
    findIdx m avB L.length tag = findIdxL L tag := by
  unfold findIdx findIdxL
  apply find_congr
  intro i hi
  rw [List.mem_range] at hi
  rw [(h i hi).1]

/-- A successful list-level search returns an in-range index of an entry
of the requested type. -/
theorem findIdxL_some {L : List (Nat × Nat)} {tag i : Nat}
    (h : findIdxL L tag = some i) : i < L.length ∧ (L.getD i (0, 0)).1 = tag := by
  unfold findIdxL at h
  have h1 := List.find?_some h
  have h2 := List.mem_of_find?_eq_some h
  rw [List.mem_range] at h2
  refine ⟨h2, by simpa using h1⟩

/-- A failed list-level search means no entry has the requested type. -/
theorem findIdxL_none {L : List (Nat × Nat)} {tag : Nat}
    (h : findIdxL L tag = none) : ∀ k, k < L.length → (L.getD k (0, 0)).1 ≠ tag := by
  intro k hk
  unfold findIdxL at h
  have := List.find?_eq_none.mp h k (List.mem_range.mpr hk)
  simpa using this

theorem getD_set_self : ∀ (L : List (Nat × Nat)) (i : Nat) (x d : Nat × Nat),
    i < L.length → (L.set i x).getD i d = x
  | [], i, _, _, h => absurd h (by simp)
  | _ :: _, 0, _, _, _ => rfl
  | _ :: t, i + 1, x, d, h => getD_set_self t i x d (by simpa using h)

theorem getD_set_ne : ∀ (L : List (Nat × Nat)) (i j : Nat) (x d : Nat × Nat),
    j ≠ i → (L.set i x).getD j d = L.getD j d
  | [], _, _, _, _, _ => rfl
  | _ :: _, 0, 0, _, _, h => absurd rfl h
  | _ :: _, 0, _ + 1, _, _, _ => rfl
  | _ :: _, _ + 1, 0, _, _, _ => rfl
  | _ :: t, i + 1, j + 1, x, d, h =>
      getD_set_ne t i j x d (fun hh => h (by rw [hh]))

theorem getD_dropLast : ∀ (L : List (Nat × Nat)) (k : Nat) (d : Nat × Nat),
    k < L.length - 1 → L.dropLast.getD k d = L.getD k d
  | [], _, _, h => absurd h (by simp)
  | [_], _, _, h => absurd h (by simp)
  | _ :: _ :: _, 0, _, _ => rfl
  | a :: b :: t, k + 1, d, h =>
      getD_dropLast (b :: t) k d (by simp at h ⊢; omega)

theorem getD_append_lt : ∀ (L M : List (Nat × Nat)) (k : Nat) (d : Nat × Nat),
    k < L.length → (L ++ M).getD k d = L.getD k d
  | [], _, _, _, h => absurd h (by simp)
  | _ :: _, _, 0, _, _ => rfl
  | _ :: t, M, k + 1, d, h => getD_append_lt t M k d (by simpa using h)

theorem getD_append_len : ∀ (L : List (Nat × Nat)) (x d : Nat × Nat),
    (L ++ [x]).getD L.length d = x
  | [], _, _ => rfl
  | _ :: t, x, d => getD_append_len t x d

/-- Closed form of the forward word copy when the destination is below
the source: it reads the original memory throughout. -/
theorem copyFwd_sem (n : Nat) : ∀ (m : Mem) (dw sw : Nat), dw ≤ sw →
    ∀ w, copyFwd m dw sw n w
      = if dw ≤ w ∧ w < dw + n then m (w - dw + sw) else m w := by
  induction n with
  | zero =>
    intro m dw sw _ w
    show m w = if dw ≤ w ∧ w < dw + 0 then m (w - dw + sw) else m w
    rw [if_neg (by omega)]
  | succ n ih =>
    intro m dw sw hds w
    show copyFwd (fun u => if u = dw then m sw else m u) (dw + 1) (sw + 1) n w = _
    rw [ih _ (dw + 1) (sw + 1) (by omega) w]
    by_cases h1 : dw + 1 ≤ w ∧ w < dw + 1 + n
    · rw [if_pos h1]
      show (if w - (dw + 1) + (sw + 1) = dw then m sw else m (w - (dw + 1) + (sw + 1)))
        = if dw ≤ w ∧ w < dw + (n + 1) then m (w - dw + sw) else m w
      rw [if_neg (show ¬(w - (dw + 1) + (sw + 1) = dw) by omega),
          if_pos (show dw ≤ w ∧ w < dw + (n + 1) by omega)]
      congr 1
      omega
    · rw [if_neg h1]
      show (if w = dw then m sw else m w)
        = if dw ≤ w ∧ w < dw + (n + 1) then m (w - dw + sw) else m w
      by_cases h2 : w = dw
      · rw [if_pos h2, if_pos (show dw ≤ w ∧ w < dw + (n + 1) by omega)]
        rw [h2]
        congr 1
        omega
      · rw [if_neg h2, if_neg (show ¬(dw ≤ w ∧ w < dw + (n + 1)) by omega)]

theorem wordSet_apply (m : Mem) (a v w : Nat) :
    wordSet m a v w = if w = a / 8 then v else m w := rfl

theorem delList_cons_ne {L : List (Nat × Nat)} {d : Nat × Nat}
    {rest : List (Nat × Nat)} (h0 : d.1 ≠ 0) :
    delList L (d :: rest) = delList (delOne L d.1) rest := by
  rw [delList, if_neg h0]

theorem setList_cons_found {L : List (Nat × Nat)} {d : Nat × Nat}
    {rest : List (Nat × Nat)} {i : Nat} (h0 : d.1 ≠ 0)
    (h : findIdxL L d.1 = some i) :
    setList L (d :: rest) = setList (L.set i (d.1, d.2)) rest := by
  rw [setList, if_neg h0, h]

theorem setList_cons_none {L : List (Nat × Nat)} {d : Nat × Nat}
    {rest : List (Nat × Nat)} (h0 : d.1 ≠ 0) (h : findIdxL L d.1 = none) :
    setList L (d :: rest) = setList (L ++ [d]) rest := by
  rw [setList, if_neg h0, h]

theorem delOne_length {L : List (Nat × Nat)} {tag i : Nat}
    (h : findIdxL L tag = some i) : (delOne L tag).length = L.length - 1 := by
  unfold delOne
  rw [h]
  simp

theorem delOne_getD {L : List (Nat × Nat)} {tag i : Nat}
    (h : findIdxL L tag = some i) (k : Nat) (hk : k < L.length - 1) :
    (delOne L tag).getD k (0, 0) =
      if k = i then L.getD (L.length - 1) (0, 0) else L.getD k (0, 0) := by
  unfold delOne
  rw [h]
  by_cases hki : k = i
  · subst hki
    rw [if_pos rfl, getD_dropLast _ _ _ (by simpa using hk),
        getD_set_self _ _ _ _ (findIdxL_some h).1]
  · rw [if_neg hki, getD_dropLast _ _ _ (by simpa using hk),
        getD_set_ne _ _ _ _ _ hki]

theorem delOne_length_le (L : List (Nat × Nat)) (tag : Nat) :
    (delOne L tag).length ≤ L.length := by
  unfold delOne
  cases h : findIdxL L tag
  · exact le_refl _
  · simp

theorem delList_length_le : ∀ (dl L : List (Nat × Nat)),
    (delList L dl).length ≤ L.length
  | [], _ => le_refl _
  | d :: rest, L => by
      unfold delList
      by_cases h0 : d.1 = 0
      · rw [if_pos h0]
      · rw [if_neg h0]
        exact le_trans (delList_length_le rest (delOne L d.1)) (delOne_length_le L d.1)

theorem setList_le_length : ∀ (nl L : List (Nat × Nat)),
    L.length ≤ (setList L nl).length
  | [], _ => le_refl _
  | d :: rest, L => by
      by_cases h0 : d.1 = 0
      · unfold setList
        rw [if_pos h0]
      · cases h : findIdxL L d.1 with
        | some i =>
          rw [setList_cons_found h0 h]
          have := setList_le_length rest (L.set i (d.1, d.2))
          simpa using this
        | none =>
          rw [setList_cons_none h0 h]
          have := setList_le_length rest (L ++ [d])
          simp at this
          omega

theorem deletePhase_cons_zero {avB : Nat} {d : Nat × Nat}
    {rest : List (Nat × Nat)} {m : Mem} {avc dc : Nat} (h0 : d.1 = 0) :
    deletePhase avB (d :: rest) m avc dc = (m, avc, dc) := by
  rw [deletePhase, if_pos h0]

theorem deletePhase_cons_none {avB : Nat} {d : Nat × Nat}
    {rest : List (Nat × Nat)} {m : Mem} {avc dc : Nat} (h0 : d.1 ≠ 0)
    (h : findIdx m avB avc d.1 = none) :
    deletePhase avB (d :: rest) m avc dc = deletePhase avB rest m avc dc := by
  rw [deletePhase, if_neg h0, h]

theorem deletePhase_cons_found {avB : Nat} {d : Nat × Nat}
    {rest : List (Nat × Nat)} {m : Mem} {avc dc i : Nat} (h0 : d.1 ≠ 0)
    (h : findIdx m avB avc d.1 = some i) :
    deletePhase avB (d :: rest) m avc dc =
      deletePhase avB rest
        (wordSet
          (wordSet (wordSet m (avB + 16 * i) (wordGet m (avB + 16 * (avc - 1))))
            (avB + 16 * i + 8)
            (wordGet (wordSet m (avB + 16 * i) (wordGet m (avB + 16 * (avc - 1))))
              (avB + 16 * (avc - 1) + 8)))
          (avB + 16 * (avc - 1)) 0)
        (avc - 1) (dc + 1) := by
  rw [deletePhase, if_neg h0, h]

theorem setPhase_cons_zero {avB : Nat} {d : Nat × Nat}
    {rest : List (Nat × Nat)} {m : Mem} {avc : Nat} (h0 : d.1 = 0) :
    setPhase avB (d :: rest) m avc = (m, avc) := by
  rw [setPhase, if_pos h0]

theorem setPhase_cons_found {avB : Nat} {d : Nat × Nat}
    {rest : List (Nat × Nat)} {m : Mem} {avc i : Nat} (h0 : d.1 ≠ 0)
    (h : findIdx m avB avc d.1 = some i) :
    setPhase avB (d :: rest) m avc
      = setPhase avB rest (wordSet m (avB + 16 * i + 8) d.2) avc := by
  rw [setPhase, if_neg h0, h]

theorem setPhase_cons_none {avB : Nat} {d : Nat × Nat}
    {rest : List (Nat × Nat)} {m : Mem} {avc : Nat} (h0 : d.1 ≠ 0)
    (h : findIdx m avB avc d.1 = none) :
    setPhase avB (d :: rest) m avc
      = setPhase avB rest
          (wordSet (wordSet m (avB + 16 * avc) d.1) (avB + 16 * avc + 8) d.2)
          (avc + 1) := by
  rw [setPhase, if_neg h0, h]

/-- The memory effect of a single deletion: the new memory represents
the swap-with-last-and-truncate list, agrees with the old memory outside
the auxv entries, and the vacated last slot's type word is `AT_NULL`. -/
theorem delStep_facts (avB : Nat) (hav : avB % 8 = 0) (m M3 : Mem)
    (L : List (Nat × Nat)) (tag i : Nat) (hfind : findIdxL L tag = some i)
    (hrepr : avRepr m avB L)
    (hM3 : M3 = wordSet
        (wordSet (wordSet m (avB + 16 * i) (wordGet m (avB + 16 * (L.length - 1))))
          (avB + 16 * i + 8)
          (wordGet (wordSet m (avB + 16 * i) (wordGet m (avB + 16 * (L.length - 1))))
            (avB + 16 * (L.length - 1) + 8)))
        (avB + 16 * (L.length - 1)) 0) :
    avRepr M3 avB (delOne L tag)
    ∧ (∀ w, 8 * w < avB ∨ avB + 16 * L.length ≤ 8 * w → M3 w = m w)
    ∧ wordGet M3 (avB + 16 * (L.length - 1)) = 0 := by
  obtain ⟨hi, -⟩ := findIdxL_some hfind
  subst hM3
  refine ⟨?_, ?_, ?_⟩
  · intro k hk
    rw [delOne_length hfind] at hk
    rw [delOne_getD hfind k hk]
    by_cases hki : k = i
    · subst hki
      rw [if_pos rfl]
      constructor
      · rw [wordGet_wordSet, if_neg (by omega), wordGet_wordSet, if_neg (by omega),
            wordGet_wordSet, if_pos rfl]
        exact (hrepr (L.length - 1) (by omega)).1
      · rw [wordGet_wordSet, if_neg (by omega), wordGet_wordSet, if_pos rfl,
            wordGet_wordSet, if_neg (by omega)]
        exact (hrepr (L.length - 1) (by omega)).2
    · rw [if_neg hki]
      constructor
      · rw [wordGet_wordSet, if_neg (by omega), wordGet_wordSet, if_neg (by omega),
            wordGet_wordSet, if_neg (by omega)]
        exact (hrepr k (by omega)).1
      · rw [wordGet_wordSet, if_neg (by omega), wordGet_wordSet, if_neg (by omega),
            wordGet_wordSet, if_neg (by omega)]
        exact (hrepr k (by omega)).2
  · intro w hw
    rw [wordSet_apply, if_neg (by omega), wordSet_apply, if_neg (by omega),
        wordSet_apply, if_neg (by omega)]
  · rw [wordGet_wordSet, if_pos rfl]

/-- The deletion loop realizes the list-level `delList`: the final
memory represents the shrunk array, nothing outside the original entry
region is written, the slot just past the new end carries an `AT_NULL`
type word whenever a deletion happened, and the memory is untouched when
none did.  The returned deletion count is the length drop. -/
theorem deletePhase_spec (avB : Nat) (hav : avB % 8 = 0) :
    ∀ (dl : List (Nat × Nat)) (m : Mem) (L : List (Nat × Nat)) (dc : Nat),
      avRepr m avB L →
      ∃ m', deletePhase avB dl m L.length dc
          = (m', (delList L dl).length, dc + (L.length - (delList L dl).length))
        ∧ avRepr m' avB (delList L dl)
        ∧ (∀ w, 8 * w < avB ∨ avB + 16 * L.length ≤ 8 * w → m' w = m w)
        ∧ ((delList L dl).length < L.length →
            wordGet m' (avB + 16 * (delList L dl).length) = 0)
        ∧ ((delList L dl).length = L.length → m' = m) := by
  intro dl
  induction dl with
  | nil =>
    intro m L dc hrepr
    refine ⟨m, ?_, hrepr, fun w _ => rfl, ?_, fun _ => rfl⟩
    · show (m, L.length, dc) = (m, L.length, dc + (L.length - L.length))
      rw [Nat.sub_self, Nat.add_zero]
    · intro hlt
      exact absurd hlt (lt_irrefl _)
  | cons d rest ih =>
    intro m L dc hrepr
    by_cases h0 : d.1 = 0
    · have hdel : delList L (d :: rest) = L := by
        unfold delList
        rw [if_pos h0]
      refine ⟨m, ?_, ?_, fun w _ => rfl, ?_, fun _ => rfl⟩
      · rw [deletePhase_cons_zero h0, hdel, Nat.sub_self, Nat.add_zero]
      · rw [hdel]
        exact hrepr
      · rw [hdel]
        intro hlt
        exact absurd hlt (lt_irrefl _)
    · have hdel : delList L (d :: rest) = delList (delOne L d.1) rest :=
        delList_cons_ne h0
      cases hfind : findIdxL L d.1 with
      | none =>
        have hfind' : findIdx m avB L.length d.1 = none := by
          rw [findIdx_repr m avB L d.1 hrepr, hfind]
        have hone : delOne L d.1 = L := by
          unfold delOne
          rw [hfind]
        rw [hone] at hdel
        obtain ⟨m', he, hr, ho, ht, hu⟩ := ih m L dc hrepr
        refine ⟨m', ?_, ?_, ho, ?_, ?_⟩
        · rw [deletePhase_cons_none h0 hfind', hdel]
          exact he
        · rw [hdel]
          exact hr
        · rw [hdel]
          exact ht
        · rw [hdel]
          exact hu
      | some i =>
        have hfind' : findIdx m avB L.length d.1 = some i := by
          rw [findIdx_repr m avB L d.1 hrepr, hfind]
        obtain ⟨hi, -⟩ := findIdxL_some hfind
        obtain ⟨hr3, ho3, ht3⟩ := delStep_facts avB hav m _ L d.1 i hfind hrepr rfl
        have hL2len : (delOne L d.1).length = L.length - 1 := delOne_length hfind
        obtain ⟨m', he, hr, ho, ht, hu⟩ := ih _ (delOne L d.1) (dc + 1) hr3
        have hKle : (delList (delOne L d.1) rest).length ≤ (delOne L d.1).length :=
          delList_length_le rest _
        refine ⟨m', ?_, ?_, ?_, ?_, ?_⟩
        · rw [hL2len] at he
          rw [deletePhase_cons_found h0 hfind', hdel, he]
          have harith : (dc + 1) +
              (L.length - 1 - (delList (delOne L d.1) rest).length)
              = dc + (L.length - (delList (delOne L d.1) rest).length) := by
            omega
          rw [harith]
        · rw [hdel]
          exact hr
        · intro w hw
          have hw2 : 8 * w < avB ∨ avB + 16 * (delOne L d.1).length ≤ 8 * w := by
            rw [hL2len]
            omega
          rw [ho w hw2]
          exact ho3 w hw
        · rw [hdel]
          intro hlt
          by_cases hk : (delList (delOne L d.1) rest).length < (delOne L d.1).length
          · exact ht hk
          · have hk2 : (delList (delOne L d.1) rest).length = (delOne L d.1).length :=
              le_antisymm hKle (le_of_not_lt hk)
            rw [hu hk2, hk2, hL2len]
            exact ht3
        · rw [hdel]
          intro heq
          exact absurd heq (by omega)

/-- Under the representation invariant the presence scan tests list
membership of the type. -/
theorem presentIn_repr (m : Mem) (avB : Nat) (L : List (Nat × Nat)) (tag : Nat)
    (h : avRepr m avB L) :
    presentIn m avB L.length tag = decide (tag ∈ L.map Prod.fst) := by
  have hiff : presentIn m avB L.length tag = true ↔ tag ∈ L.map Prod.fst := by
    unfold presentIn
    rw [List.any_eq_true]
    constructor
    · rintro ⟨i, hir, hf⟩
      rw [List.mem_range] at hir
      rw [(h i hir).1] at hf
      have heq : (L.getD i (0, 0)).1 = tag := by simpa using hf
      rw [← heq, List.getD_eq_getElem _ _ hir]
      exact List.mem_map_of_mem Prod.fst (List.getElem_mem _)
    · intro hmem
      obtain ⟨e, he, hetag⟩ := List.mem_map.mp hmem
      obtain ⟨i, hi, hei⟩ := List.mem_iff_getElem.mp he
      refine ⟨i, List.mem_range.mpr hi, ?_⟩
      rw [(h i hi).1, List.getD_eq_getElem _ _ hi, hei, hetag]
      simp
  by_cases hmem : tag ∈ L.map Prod.fst
  · rw [decide_eq_true hmem, hiff.mpr hmem]
  · rw [decide_eq_false hmem]
    cases hp : presentIn m avB L.length tag
    · rfl
    · exact absurd (hiff.mp hp) hmem

/-- Under the representation invariant the memory-level count of
missing replacement types agrees with the list-level one. -/
theorem countNew_repr (m : Mem) (avB : Nat) (L : List (Nat × Nat))
    (h : avRepr m avB L) :
    ∀ nl, countNew m avB L.length nl = countNewL L nl := by
  intro nl
  induction nl with
  | nil => rfl
  | cons d rest ih =>
    show (if d.1 = 0 then 0
        else (if presentIn m avB L.length d.1 then 0 else 1)
          + countNew m avB L.length rest)
      = if d.1 = 0 then 0
        else (if d.1 ∈ L.map Prod.fst then 0 else 1) + countNewL L rest
    rw [presentIn_repr m avB L d.1 h, ih]
    by_cases h0 : d.1 = 0
    · rw [if_pos h0, if_pos h0]
    · rw [if_neg h0, if_neg h0]
      by_cases hd : d.1 ∈ L.map Prod.fst
      · simp [hd]
      · simp [hd]

/-- The overwrite-or-append loop realizes the list-level `setList`: the
final memory represents the extended array and nothing outside the
final entry region is written. -/
theorem setPhase_spec (avB : Nat) (hav : avB % 8 = 0) :
    ∀ (nl : List (Nat × Nat)) (m : Mem) (L : List (Nat × Nat)),
      avRepr m avB L →
      ∃ m', setPhase avB nl m L.length = (m', (setList L nl).length)
        ∧ avRepr m' avB (setList L nl)
        ∧ (∀ w, 8 * w < avB ∨ avB + 16 * (setList L nl).length ≤ 8 * w
            → m' w = m w) := by
  intro nl
  induction nl with
  | nil =>
    intro m L hrepr
    exact ⟨m, rfl, hrepr, fun w _ => rfl⟩
  | cons d rest ih =>
    intro m L hrepr
    by_cases h0 : d.1 = 0
    · have hset : setList L (d :: rest) = L := by
        rw [setList, if_pos h0]
      refine ⟨m, ?_, ?_, fun w _ => rfl⟩
      · rw [setPhase_cons_zero h0, hset]
      · rw [hset]
        exact hrepr
    · cases hfind : findIdxL L d.1 with
      | some i =>
        have hfind' : findIdx m avB L.length d.1 = some i := by
          rw [findIdx_repr m avB L d.1 hrepr, hfind]
        obtain ⟨hi, hty⟩ := findIdxL_some hfind
        have hrepr1 : avRepr (wordSet m (avB + 16 * i + 8) d.2) avB
            (L.set i (d.1, d.2)) := by
          intro k hk
          rw [List.length_set] at hk
          by_cases hki : k = i
          · subst hki
            rw [getD_set_self _ _ _ _ hk]
            constructor
            · rw [wordGet_wordSet, if_neg (by omega), (hrepr k hk).1, hty]
            · rw [wordGet_wordSet, if_pos rfl]
          · rw [getD_set_ne _ _ _ _ _ hki]
            constructor
            · rw [wordGet_wordSet, if_neg (by omega)]
              exact (hrepr k hk).1
            · rw [wordGet_wordSet, if_neg (by omega)]
              exact (hrepr k hk).2
        obtain ⟨m', he, hr, ho⟩ := ih _ (L.set i (d.1, d.2)) hrepr1
        rw [List.length_set] at he
        have hset : setList L (d :: rest) = setList (L.set i (d.1, d.2)) rest :=
          setList_cons_found h0 hfind
        refine ⟨m', ?_, ?_, ?_⟩
        · rw [setPhase_cons_found h0 hfind', hset]
          exact he
        · rw [hset]
          exact hr
        · intro w hw
          have hw2 : 8 * w < avB
              ∨ avB + 16 * (setList (L.set i (d.1, d.2)) rest).length ≤ 8 * w := by
            rw [← hset]
            exact hw
          rw [ho w hw2]
          have hfin : i < (setList L (d :: rest)).length := by
            rw [hset]
            exact lt_of_lt_of_le (by rw [List.length_set]; exact hi)
              (setList_le_length rest _)
          rw [wordSet_apply, if_neg (by omega)]
      | none =>
        have hfind' : findIdx m avB L.length d.1 = none := by
          rw [findIdx_repr m avB L d.1 hrepr, hfind]
        have hrepr1 : avRepr (wordSet (wordSet m (avB + 16 * L.length) d.1)
            (avB + 16 * L.length + 8) d.2) avB (L ++ [d]) := by
          intro k hk
          simp only [List.length_append, List.length_cons, List.length_nil] at hk
          by_cases hki : k = L.length
          · subst hki
            constructor
            · rw [getD_append_len, wordGet_wordSet, if_neg (by omega),
                  wordGet_wordSet, if_pos rfl]
            · rw [getD_append_len, wordGet_wordSet, if_pos rfl]
          · have hklt : k < L.length := by omega
            rw [getD_append_lt _ _ _ _ hklt]
            constructor
            · rw [wordGet_wordSet, if_neg (by omega), wordGet_wordSet,
                  if_neg (by omega)]
              exact (hrepr k hklt).1
            · rw [wordGet_wordSet, if_neg (by omega), wordGet_wordSet,
                  if_neg (by omega)]
              exact (hrepr k hklt).2
        obtain ⟨m', he, hr, ho⟩ := ih _ (L ++ [d]) hrepr1
        have hlen : (L ++ [d]).length = L.length + 1 := by simp
        rw [hlen] at he
        have hset : setList L (d :: rest) = setList (L ++ [d]) rest :=
          setList_cons_none h0 hfind
        refine ⟨m', ?_, ?_, ?_⟩
        · rw [setPhase_cons_none h0 hfind', hset]
          exact he
        · rw [hset]
          exact hr
        · intro w hw
          have hw2 : 8 * w < avB
              ∨ avB + 16 * (setList (L ++ [d]) rest).length ≤ 8 * w := by
            rw [← hset]
            exact hw
          rw [ho w hw2]
          have hfin : L.length < (setList L (d :: rest)).length := by
            rw [hset]
            exact lt_of_lt_of_le (by simp) (setList_le_length rest _)
          rw [wordSet_apply, if_neg (by omega), wordSet_apply, if_neg (by omega)]

/-- Closed form of the backward word copy when the destination is above
the source: it reads the original memory throughout. -/
theorem copyBwd_sem (n : Nat) : ∀ (m : Mem) (dw sw : Nat), sw ≤ dw →
    ∀ w, copyBwd m dw sw n w
      = if dw ≤ w ∧ w < dw + n then m (w - dw + sw) else m w := by
  induction n with
  | zero =>
    intro m dw sw _ w
    show m w = if dw ≤ w ∧ w < dw + 0 then m (w - dw + sw) else m w
    rw [if_neg (by omega)]
  | succ n ih =>
    intro m dw sw hds w
    show copyBwd (fun u => if u = dw + n then m (sw + n) else m u) dw sw n w = _
    rw [ih _ dw sw hds w]
    by_cases h1 : dw ≤ w ∧ w < dw + n
    · rw [if_pos h1]
      show (if w - dw + sw = dw + n then m (sw + n) else m (w - dw + sw))
        = if dw ≤ w ∧ w < dw + (n + 1) then m (w - dw + sw) else m w
      rw [if_neg (show ¬(w - dw + sw = dw + n) by omega),
          if_pos (show dw ≤ w ∧ w < dw + (n + 1) by omega)]
    · rw [if_neg h1]
      show (if w = dw + n then m (sw + n) else m w)
        = if dw ≤ w ∧ w < dw + (n + 1) then m (w - dw + sw) else m w
      by_cases h2 : w = dw + n
      · rw [if_pos h2, if_pos (show dw ≤ w ∧ w < dw + (n + 1) by omega)]
        congr 1
        omega
      · rw [if_neg h2, if_neg (show ¬(dw ≤ w ∧ w < dw + (n + 1)) by omega)]

/-- The entry scan stops exactly at the terminator when all entries
have a nonzero type. -/
theorem countAux_spec (m : Mem) (avB : Nat) (L : List (Nat × Nat))
    (hrepr : avRepr m avB L) (htypes : ∀ e ∈ L, e.1 ≠ 0)
    (hterm0 : wordGet m (avB + 16 * L.length) = 0) :
    ∀ fuel c, c ≤ L.length → L.length - c < fuel →
      countAux m avB fuel c = some L.length := by
  intro fuel
  induction fuel with
  | zero =>
    intro c hc hf
    exact absurd hf (by omega)
  | succ fuel ih =>
    intro c hc hf
    show (if wordGet m (avB + 16 * c) = 0 then some c
        else countAux m avB fuel (c + 1)) = some L.length
    by_cases hcl : c = L.length
    · subst hcl
      rw [if_pos hterm0]
    · have hclt : c < L.length := by omega
      have hne : ¬ wordGet m (avB + 16 * c) = 0 := by
        rw [(hrepr c hclt).1]
        have hmem : L.getD c (0, 0) ∈ L := by
          rw [List.getD_eq_getElem _ _ hclt]
          exact List.getElem_mem _
        exact htypes _ hmem
      rw [if_neg hne]
      exact ih (c + 1) (by omega) (by omega)

theorem findIdxL_mem_types {L : List (Nat × Nat)} {tag i : Nat}
    (h : findIdxL L tag = some i) : tag ∈ L.map Prod.fst := by
  obtain ⟨hi, hty⟩ := findIdxL_some h
  rw [← hty, List.getD_eq_getElem _ _ hi]
  exact List.mem_map_of_mem Prod.fst (List.getElem_mem _)

theorem findIdxL_none_not_mem {L : List (Nat × Nat)} {tag : Nat}
    (h : findIdxL L tag = none) : tag ∉ L.map Prod.fst := by
  intro hmem
  obtain ⟨e, he, hetag⟩ := List.mem_map.mp hmem
  obtain ⟨i, hi, hei⟩ := List.mem_iff_getElem.mp he
  exact (findIdxL_none h i hi) (by rw [List.getD_eq_getElem _ _ hi, hei, hetag])

theorem map_fst_set_eq : ∀ (L : List (Nat × Nat)) (i : Nat) (t v : Nat),
    (L.getD i (0, 0)).1 = t → (L.set i (t, v)).map Prod.fst = L.map Prod.fst
  | [], _, _, _, _ => rfl
  | a :: tl, 0, t, v, h => by
      show t :: tl.map Prod.fst = a.1 :: tl.map Prod.fst
      rw [← h]
      rfl
  | a :: tl, i + 1, t, v, h => by
      show a.1 :: (tl.set i (t, v)).map Prod.fst = a.1 :: tl.map Prod.fst
      rw [map_fst_set_eq tl i t v h]

theorem countNewL_congr {L M : List (Nat × Nat)}
    (h : L.map Prod.fst = M.map Prod.fst) :
    ∀ nl, countNewL L nl = countNewL M nl
  | [] => rfl
  | d :: rest => by
      show (if d.1 = 0 then 0
          else (if d.1 ∈ L.map Prod.fst then 0 else 1) + countNewL L rest)
        = (if d.1 = 0 then 0
          else (if d.1 ∈ M.map Prod.fst then 0 else 1) + countNewL M rest)
      rw [h, countNewL_congr h rest]

theorem countNewL_append_notin {L : List (Nat × Nat)} {x : Nat × Nat} :
    ∀ nl, (∀ r ∈ nl, r.1 ≠ x.1) → countNewL (L ++ [x]) nl = countNewL L nl
  | [], _ => rfl
  | d :: rest, h => by
      show (if d.1 = 0 then 0
          else (if d.1 ∈ (L ++ [x]).map Prod.fst then 0 else 1)
            + countNewL (L ++ [x]) rest)
        = (if d.1 = 0 then 0
          else (if d.1 ∈ L.map Prod.fst then 0 else 1) + countNewL L rest)
      rw [countNewL_append_notin rest (fun r hr => h r (List.mem_cons_of_mem d hr))]
      by_cases h0 : d.1 = 0
      · rw [if_pos h0, if_pos h0]
      · rw [if_neg h0, if_neg h0]
        have hd := h d (List.mem_cons_self d rest)
        have hiff : (d.1 ∈ (L ++ [x]).map Prod.fst) ↔ (d.1 ∈ L.map Prod.fst) := by
          rw [List.map_append]
          simp [hd]
        by_cases hm : d.1 ∈ L.map Prod.fst
        · rw [if_pos hm, if_pos (hiff.mpr hm)]
        · rw [if_neg hm, if_neg (fun hc => hm (hiff.mp hc))]

/-- With distinct nonzero replacement types the overwrite-or-append loop
grows the array by exactly the missing-type count. -/
theorem setList_length : ∀ (nl L : List (Nat × Nat)),
    (nl.map Prod.fst).Nodup → (∀ p ∈ nl, p.1 ≠ 0) →
    (setList L nl).length = L.length + countNewL L nl
  | [], L, _, _ => by
      show L.length = L.length + 0
      rw [Nat.add_zero]
  | d :: rest, L, hnd, h0s => by
      have h0 : d.1 ≠ 0 := h0s d (List.mem_cons_self d rest)
      rw [List.map_cons] at hnd
      have hnd' : (rest.map Prod.fst).Nodup := (List.nodup_cons.mp hnd).2
      have hdrest : d.1 ∉ rest.map Prod.fst := (List.nodup_cons.mp hnd).1
      have h0s' : ∀ p ∈ rest, p.1 ≠ 0 :=
        fun p hp => h0s p (List.mem_cons_of_mem d hp)
      show (setList L (d :: rest)).length
        = L.length + (if d.1 = 0 then 0
            else (if d.1 ∈ L.map Prod.fst then 0 else 1) + countNewL L rest)
      rw [if_neg h0]
      cases hfind : findIdxL L d.1 with
      | some i =>
        rw [setList_cons_found h0 hfind,
            setList_length rest (L.set i (d.1, d.2)) hnd' h0s',
            List.length_set,
            countNewL_congr (map_fst_set_eq L i d.1 d.2 (findIdxL_some hfind).2) rest,
            if_pos (findIdxL_mem_types hfind)]
        omega
      | none =>
        rw [setList_cons_none h0 hfind,
            setList_length rest (L ++ [d]) hnd' h0s',
            countNewL_append_notin rest
              (fun r hr heq => hdrest (heq ▸ List.mem_map_of_mem Prod.fst hr)),
            if_neg (findIdxL_none_not_mem hfind), List.length_append]
        show L.length + 1 + countNewL L rest = L.length + (1 + countNewL L rest)
        omega

/-- Unfolding `set_auxiliary_values` along an explicit run. -/
theorem set_auxiliary_values_eq2
    (m m1 : Mem) (av src fuel avc0 avc1 dcv ncv dstv : Nat)
    (newAv delAv : List (Nat × Nat))
    (hg : src % 8 = 0 ∧ av % 8 = 0 ∧ src ≤ av)
    (hcount : countAux m av fuel 0 = some avc0)
    (hdel : deletePhase av delAv m avc0 0 = (m1, avc1, dcv))
    (hncv : countNew m1 av avc1 newAv = ncv)
    (hlt : ¬(src + 16 * dcv < 16 * ncv))
    (hdstv : (src + 16 * dcv) - 16 * ncv
        - ((src + 16 * dcv) - 16 * ncv) % 16 = dstv) :
    set_auxiliary_values m av src newAv delAv fuel =
      some ((setPhase ((av + dstv) - src) newAv
              (if dstv < src then
                copyFwd m1 (dstv / 8) (src / 8) (((av + 16 * (avc1 + 1)) - src) / 8)
               else if src < dstv then
                copyBwd m1 (dstv / 8) (src / 8) (((av + 16 * (avc1 + 1)) - src) / 8)
               else m1) avc1).1, dstv) := by
  unfold set_auxiliary_values
  rw [if_neg (not_not_intro hg)]
  simp only [hcount]
  simp only [hdel]
  simp only [hncv]
  rw [if_neg hlt]
  simp only [hdstv]

/-- The full behaviour of `set_auxiliary_values` on a well-formed
terminated auxv: the run succeeds, the written-back stack top is the
aligned shifted pointer, the final memory represents
`setList (delList L delAv) newAv` at the shifted base, the entry past
the end always carries an `AT_NULL` type word, and its value word is 0
when an entry was appended or nothing was deleted. -/
theorem set_auxiliary_values_run
    (m : Mem) (av src fuel : Nat) (newAv delAv L : List (Nat × Nat))
    (hsrc : src % 16 = 0) (hav : av % 8 = 0) (hsa : src ≤ av)
    (hrepr : avRepr m av L)
    (htypes : ∀ e ∈ L, e.1 ≠ 0)
    (hterm0 : wordGet m (av + 16 * L.length) = 0)
    (htermv : wordGet m (av + 16 * L.length + 8) = 0)
    (hfuel : L.length < fuel)
    (hnew0 : ∀ p ∈ newAv, p.1 ≠ 0)
    (hnodup : (newAv.map Prod.fst).Nodup)
    (hnowrap : 16 * countNewL (delList L delAv) newAv ≤ src) :
    ∀ L1 dc nc dst av2 L2,
      L1 = delList L delAv →
      dc = L.length - L1.length →
      nc = countNewL L1 newAv →
      dst = src + 16 * dc - 16 * nc →
      av2 = av + 16 * dc - 16 * nc →
      L2 = setList L1 newAv →
      ∃ m3, set_auxiliary_values m av src newAv delAv fuel = some (m3, dst)
        ∧ dst % 16 = 0
        ∧ avRepr m3 av2 L2
        ∧ wordGet m3 (av2 + 16 * L2.length) = 0
        ∧ ((1 ≤ nc ∨ dc = 0) → wordGet m3 (av2 + 16 * L2.length + 8) = 0) := by
  intro L1 dc nc dst av2 L2 hL1 hdc hnc hdst hav2 hL2
  subst hL1
  have hlenle : (delList L delAv).length ≤ L.length := delList_length_le delAv L
  obtain ⟨m1, he1, hr1, ho1, ht1, hu1⟩ := deletePhase_spec av hav delAv m L 0 hrepr
  rw [Nat.zero_add] at he1
  have hcnt : countAux m av fuel 0 = some L.length :=
    countAux_spec m av L hrepr htypes hterm0 fuel 0 (Nat.zero_le _) (by omega)
  have hcn : countNew m1 av (delList L delAv).length newAv = nc := by
    rw [countNew_repr m1 av (delList L delAv) hr1 newAv, hnc]
  have hrun := set_auxiliary_values_eq2 m m1 av src fuel L.length
    (delList L delAv).length (L.length - (delList L delAv).length) nc dst
    newAv delAv ⟨by omega, hav, hsa⟩ hcnt he1 hcn (by omega) (by omega)
  have hav2' : (av + dst) - src = av2 := by omega
  rw [hav2'] at hrun
  have hK2 : (setList (delList L delAv) newAv).length
      = (delList L delAv).length + nc := by
    rw [setList_length newAv (delList L delAv) hnodup hnew0, hnc]
  have hKL2 : L2.length = (delList L delAv).length + nc := by
    rw [hL2, hK2]
  set LEN := (av + 16 * ((delList L delAv).length + 1)) - src with hLEN
  set M2 := (if dst < src then copyFwd m1 (dst / 8) (src / 8) (LEN / 8)
             else if src < dst then copyBwd m1 (dst / 8) (src / 8) (LEN / 8)
             else m1) with hM2
  have hm2 : ∀ w, M2 w
      = if dst / 8 ≤ w ∧ w < dst / 8 + LEN / 8
        then m1 (w - dst / 8 + src / 8) else m1 w := by
    intro w
    rw [hM2]
    rcases lt_trichotomy dst src with h | h | h
    · rw [if_pos h]
      exact copyFwd_sem (LEN / 8) m1 (dst / 8) (src / 8) (by omega) w
    · rw [if_neg (by omega), if_neg (by omega)]
      by_cases hw : dst / 8 ≤ w ∧ w < dst / 8 + LEN / 8
      · rw [if_pos hw]
        congr 1
        omega
      · rw [if_neg hw]
    · rw [if_neg (by omega), if_pos h]
      exact copyBwd_sem (LEN / 8) m1 (dst / 8) (src / 8) (by omega) w
  have hA2 : av2 % 8 = 0 := by omega
  have hcopy0 : ∀ k, k ≤ (delList L delAv).length →
      wordGet M2 (av2 + 16 * k) = wordGet m1 (av + 16 * k) := by
    intro k hk
    show M2 ((av2 + 16 * k) / 8) = m1 ((av + 16 * k) / 8)
    rw [hm2 ((av2 + 16 * k) / 8), if_pos (by omega)]
    congr 1
    omega
  have hcopy8 : ∀ k, k ≤ (delList L delAv).length →
      wordGet M2 (av2 + 16 * k + 8) = wordGet m1 (av + 16 * k + 8) := by
    intro k hk
    show M2 ((av2 + 16 * k + 8) / 8) = m1 ((av + 16 * k + 8) / 8)
    rw [hm2 ((av2 + 16 * k + 8) / 8), if_pos (by omega)]
    congr 1
    omega
  have hrepr2 : avRepr M2 av2 (delList L delAv) := by
    intro k hk
    refine ⟨?_, ?_⟩
    · rw [hcopy0 k (le_of_lt hk)]
      exact (hr1 k hk).1
    · rw [hcopy8 k (le_of_lt hk)]
      exact (hr1 k hk).2
  obtain ⟨m3, he3, hr3, ho3⟩ := setPhase_spec av2 hA2 newAv M2 (delList L delAv) hrepr2
  have ht3t : wordGet m3 (av2 + 16 * L2.length) = wordGet M2 (av2 + 16 * L2.length) := by
    show m3 ((av2 + 16 * L2.length) / 8) = M2 ((av2 + 16 * L2.length) / 8)
    exact ho3 _ (Or.inr (by omega))
  have ht3v : wordGet m3 (av2 + 16 * L2.length + 8)
      = wordGet M2 (av2 + 16 * L2.length + 8) := by
    show m3 ((av2 + 16 * L2.length + 8) / 8) = M2 ((av2 + 16 * L2.length + 8) / 8)
    exact ho3 _ (Or.inr (by omega))
  refine ⟨m3, ?_, by omega, ?_, ?_, ?_⟩
  · rw [hrun, he3]
  · rw [hL2]
    exact hr3
  · rw [ht3t]
    show M2 ((av2 + 16 * L2.length) / 8) = 0
    by_cases hnc1 : 1 ≤ nc
    · rw [hm2 _, if_neg (by omega)]
      have hmm : m1 ((av2 + 16 * L2.length) / 8) = m ((av2 + 16 * L2.length) / 8) :=
        ho1 _ (Or.inr (by omega))
      rw [hmm, show (av2 + 16 * L2.length) / 8 = (av + 16 * L.length) / 8 from by omega]
      exact hterm0
    · rw [hm2 _, if_pos (by omega)]
      rw [show (av2 + 16 * L2.length) / 8 - dst / 8 + src / 8
          = (av + 16 * (delList L delAv).length) / 8 from by omega]
      rcases lt_or_eq_of_le hlenle with hlt | heq
      · exact ht1 hlt
      · rw [hu1 heq,
            show (av + 16 * (delList L delAv).length) / 8 = (av + 16 * L.length) / 8
              from by omega]
        exact hterm0
  · intro hor
    rw [ht3v]
    show M2 ((av2 + 16 * L2.length + 8) / 8) = 0
    by_cases hnc1 : 1 ≤ nc
    · rw [hm2 _, if_neg (by omega)]
      have hmm : m1 ((av2 + 16 * L2.length + 8) / 8)
          = m ((av2 + 16 * L2.length + 8) / 8) := ho1 _ (Or.inr (by omega))
      rw [hmm, show (av2 + 16 * L2.length + 8) / 8 = (av + 16 * L.length + 8) / 8
          from by omega]
      exact htermv
    · have hdc0 : (delList L delAv).length = L.length := by
        rcases hor with h1 | h2
        · exact absurd h1 hnc1
        · omega
      rw [hm2 _, if_pos (by omega), hu1 hdc0,
          show (av2 + 16 * L2.length + 8) / 8 - dst / 8 + src / 8
            = (av + 16 * L.length + 8) / 8 from by omega]
      exact htermv

/-- Counterexample to claim C2 as stated: deleting the only auxv entry
makes the vacated slot the new terminator, but only its type word is
cleared — the backward block move then carries the old entry's stale
value word under the terminator.  Here the rewritten auxv ends with an
entry of type `AT_NULL` whose value word is 5, not 0 (the written-back
stack pointer is still 16-byte aligned). -/
theorem set_auxiliary_values_claim2_counterexample :
    ∃ p : Mem × Nat, set_auxiliary_values cexMem 16 0 [] [(7, 0)] 2 = some p
      ∧ p.2 = 16
      ∧ p.2 % 16 = 0
      ∧ wordGet p.1 (16 + p.2) = 0
      ∧ wordGet p.1 (16 + p.2 + 8) = 5 :=
  ⟨_, rfl, rfl, rfl, rfl, rfl⟩

/-- Claim C2 (corrected): on a terminated auxv with aligned stack and
auxv pointers, nonzero entry types, distinct nonzero replacement types
and enough stack room, `set_auxiliary_values` succeeds, the written-back
stack pointer is 16-byte aligned, and the rewritten auxv is terminated
by an entry of type `AT_NULL`; the terminator's value word is 0 whenever
some entry was appended or no entry was deleted — but not in general,
because deletion clears only the type word of the vacated slot. -/
theorem set_auxiliary_values_terminator
    (m : Mem) (av src fuel : Nat) (newAv delAv L : List (Nat × Nat))
    (hsrc : src % 16 = 0) (hav : av % 8 = 0) (hsa : src ≤ av)
    (hrepr : avRepr m av L)
    (htypes : ∀ e ∈ L, e.1 ≠ 0)
    (hterm0 : wordGet m (av + 16 * L.length) = 0)
    (htermv : wordGet m (av + 16 * L.length + 8) = 0)
    (hfuel : L.length < fuel)
    (hnew0 : ∀ p ∈ newAv, p.1 ≠ 0)
    (hnodup : (newAv.map Prod.fst).Nodup)
    (hnowrap : 16 * countNewL (delList L delAv) newAv ≤ src) :
    ∃ m3 dst,
      set_auxiliary_values m av src newAv delAv fuel = some (m3, dst)
      ∧ dst % 16 = 0
      ∧ wordGet m3 (av + dst - src
          + 16 * (setList (delList L delAv) newAv).length) = 0
      ∧ ((1 ≤ countNewL (delList L delAv) newAv
            ∨ (delList L delAv).length = L.length)
          → wordGet m3 (av + dst - src
              + 16 * (setList (delList L delAv) newAv).length + 8) = 0) := by
  obtain ⟨m3, h1, h2, h3, h4, h5⟩ :=
    set_auxiliary_values_run m av src fuel newAv delAv L hsrc hav hsa hrepr
      htypes hterm0 htermv hfuel hnew0 hnodup hnowrap
      (delList L delAv) (L.length - (delList L delAv).length)
      (countNewL (delList L delAv) newAv)
      (src + 16 * (L.length - (delList L delAv).length)
        - 16 * countNewL (delList L delAv) newAv)
      (av + 16 * (L.length - (delList L delAv).length)
        - 16 * countNewL (delList L delAv) newAv)
      (setList (delList L delAv) newAv)
      rfl rfl rfl rfl rfl rfl
  have haddr : av + (src + 16 * (L.length - (delList L delAv).length)
        - 16 * countNewL (delList L delAv) newAv) - src
      = av + 16 * (L.length - (delList L delAv).length)
        - 16 * countNewL (delList L delAv) newAv := by
    omega
  refine ⟨m3, _, h1, h2, ?_, ?_⟩
  · rw [haddr]
    exact h4
  · intro hor
    rw [haddr]
    apply h5
    rcases hor with h | h
    · exact Or.inl h
    · have := delList_length_le delAv L
      right
      omega

/-- Witness for claim C2's theorem: one appended replacement entry on a
one-entry auxv, ending in a genuine `(AT_NULL, 0)` terminator. -/
theorem set_auxiliary_values_terminator_witness :
    ∃ m3 dst,
      set_auxiliary_values wMem 32 16 [(33, 5)] [] 2 = some (m3, dst)
      ∧ dst % 16 = 0
      ∧ wordGet m3 (32 + dst - 16
          + 16 * (setList (delList [(21, 77)] []) [(33, 5)]).length) = 0
      ∧ ((1 ≤ countNewL (delList [(21, 77)] []) [(33, 5)]
            ∨ (delList [(21, 77)] []).length = ([(21, 77)] : List (Nat × Nat)).length)
          → wordGet m3 (32 + dst - 16
              + 16 * (setList (delList [(21, 77)] []) [(33, 5)]).length + 8) = 0) :=
  set_auxiliary_values_terminator wMem 32 16 2 [(33, 5)] [] [(21, 77)]
    (by decide) (by decide) (by decide) (by decide) (by decide) (by decide)
    (by decide) (by decide) (by decide) (by decide) (by decide)

theorem map_fst_eraseIdx : ∀ (L : List (Nat × Nat)) (i : Nat),
    (L.eraseIdx i).map Prod.fst = (L.map Prod.fst).eraseIdx i
  | [], _ => rfl
  | _ :: _, 0 => rfl
  | a :: t, i + 1 => by
      show a.1 :: (t.eraseIdx i).map Prod.fst = a.1 :: (t.map Prod.fst).eraseIdx i
      rw [map_fst_eraseIdx t i]

theorem nodup_not_mem_eraseIdx : ∀ (M : List Nat) (i tag : Nat),
    M.Nodup → i < M.length → M.getD i 0 = tag → tag ∉ M.eraseIdx i
  | [], i, _, _, hi, _ => by simp at hi
  | a :: t, 0, tag, hnd, _, hget => by
      have ha : a = tag := hget
      rw [← ha]
      show a ∉ t
      exact (List.nodup_cons.mp hnd).1
  | a :: t, i + 1, tag, hnd, hi, hget => by
      show tag ∉ a :: t.eraseIdx i
      intro hmem
      rcases List.mem_cons.mp hmem with heq | hmem2
      · have htag_mem : tag ∈ t := by
          rw [← hget]
          show t.getD i 0 ∈ t
          rw [List.getD_eq_getElem _ _ (by simpa using hi)]
          exact List.getElem_mem _
        rw [heq] at htag_mem
        exact (List.nodup_cons.mp hnd).1 htag_mem
      · exact nodup_not_mem_eraseIdx t i tag (List.nodup_cons.mp hnd).2
          (by simpa using hi) hget hmem2

/-- The swap-with-last-and-truncate deletion step is, up to entry
order, exactly the removal of the matched index. -/
theorem set_dropLast_perm : ∀ (L : List (Nat × Nat)) (i : Nat), i < L.length →
    ((L.set i (L.getD (L.length - 1) (0, 0))).dropLast).Perm (L.eraseIdx i)
  | [], _, h => by simp at h
  | a :: t, 0, _ => by
      cases t with
      | nil => exact List.Perm.refl _
      | cons b t2 =>
        show (((b :: t2).getD ((b :: t2).length - 1) (0, 0)) :: (b :: t2).dropLast).Perm
          (b :: t2)
        have hgl : (b :: t2).getD ((b :: t2).length - 1) (0, 0)
            = (b :: t2).getLast (by simp) := by
          rw [List.getD_eq_getElem _ _ (by simp), List.getLast_eq_getElem _ (by simp)]
        rw [hgl]
        have h2 : ((b :: t2).getLast (by simp) :: (b :: t2).dropLast).Perm
            ((b :: t2).dropLast ++ [(b :: t2).getLast (by simp)]) :=
          (List.perm_append_singleton _ _).symm
        rw [List.dropLast_append_getLast (by simp)] at h2
        exact h2
  | a :: t, i + 1, h => by
      cases t with
      | nil => simp at h
      | cons b t2 =>
        have hi2 : i < (b :: t2).length := by simpa using h
        have hne : (b :: t2).set i ((b :: t2).getD ((b :: t2).length - 1) (0, 0)) ≠ [] := by
          intro hh
          simpa using congrArg List.length hh
        show ((a :: (b :: t2).set i ((b :: t2).getD ((b :: t2).length - 1) (0, 0))).dropLast).Perm
          (a :: (b :: t2).eraseIdx i)
        rw [List.dropLast_cons_of_ne_nil hne]
        exact List.Perm.cons a (set_dropLast_perm (b :: t2) i hi2)

/-- A found deletion step permutes to removal of the matched index. -/
theorem delOne_perm {L : List (Nat × Nat)} {tag i : Nat}
    (h : findIdxL L tag = some i) :
    (delOne L tag).Perm (L.eraseIdx i) := by
  unfold delOne
  rw [h]
  exact set_dropLast_perm L i (findIdxL_some h).1

/-- With distinct types, a found deletion removes the tag for good. -/
theorem delOne_removes {L : List (Nat × Nat)} {tag i : Nat}
    (h : findIdxL L tag = some i) (hnd : (L.map Prod.fst).Nodup) :
    tag ∉ (delOne L tag).map Prod.fst := by
  obtain ⟨hi, hty⟩ := findIdxL_some h
  have hperm : ((delOne L tag).map Prod.fst).Perm ((L.eraseIdx i).map Prod.fst) :=
    (delOne_perm h).map Prod.fst
  rw [map_fst_eraseIdx] at hperm
  intro hmem
  have hmem2 : tag ∈ (L.map Prod.fst).eraseIdx i := hperm.subset hmem
  have hgd : (L.map Prod.fst).getD i 0 = tag := by
    rw [List.getD_eq_getElem _ _ (by simpa using hi), List.getElem_map]
    rw [← List.getD_eq_getElem _ (0, 0) hi]
    exact hty
  exact nodup_not_mem_eraseIdx (L.map Prod.fst) i tag hnd (by simpa using hi)
    hgd hmem2

theorem delOne_types_subset (L : List (Nat × Nat)) (tag t : Nat) :
    t ∈ (delOne L tag).map Prod.fst → t ∈ L.map Prod.fst := by
  intro hmem
  cases hfind : findIdxL L tag with
  | none =>
    unfold delOne at hmem
    rw [hfind] at hmem
    exact hmem
  | some i =>
    have hperm : ((delOne L tag).map Prod.fst).Perm ((L.eraseIdx i).map Prod.fst) :=
      (delOne_perm hfind).map Prod.fst
    exact ((List.eraseIdx_sublist L i).map Prod.fst).subset (hperm.subset hmem)

theorem delOne_types_nodup (L : List (Nat × Nat)) (tag : Nat)
    (hnd : (L.map Prod.fst).Nodup) : ((delOne L tag).map Prod.fst).Nodup := by
  cases hfind : findIdxL L tag with
  | none =>
    unfold delOne
    rw [hfind]
    exact hnd
  | some i =>
    have hperm : ((delOne L tag).map Prod.fst).Perm ((L.eraseIdx i).map Prod.fst) :=
      (delOne_perm hfind).map Prod.fst
    exact hperm.nodup_iff.mpr
      (hnd.sublist ((List.eraseIdx_sublist L i).map Prod.fst))

theorem delList_types_subset : ∀ (dl L : List (Nat × Nat)) (t : Nat),
    t ∈ (delList L dl).map Prod.fst → t ∈ L.map Prod.fst
  | [], _, _ => fun h => h
  | d :: rest, L, t => by
      by_cases h0 : d.1 = 0
      · intro hmem
        have heq : delList L (d :: rest) = L := by
          rw [delList, if_pos h0]
        rwa [heq] at hmem
      · intro hmem
        rw [delList_cons_ne h0] at hmem
        exact delOne_types_subset L d.1 t (delList_types_subset rest (delOne L d.1) t hmem)

theorem delList_types_nodup : ∀ (dl L : List (Nat × Nat)),
    (L.map Prod.fst).Nodup → ((delList L dl).map Prod.fst).Nodup
  | [], _, hnd => hnd
  | d :: rest, L, hnd => by
      by_cases h0 : d.1 = 0
      · have heq : delList L (d :: rest) = L := by
          rw [delList, if_pos h0]
        rw [heq]
        exact hnd
      · rw [delList_cons_ne h0]
        exact delList_types_nodup rest (delOne L d.1) (delOne_types_nodup L d.1 hnd)

/-- After the whole deletion loop, a deleted tag is absent (whether or
not it was present), provided the entry types are distinct. -/
theorem delList_removes : ∀ (dl L : List (Nat × Nat)) (t : Nat),
    (L.map Prod.fst).Nodup → (∀ d ∈ dl, d.1 ≠ 0) → t ∈ dl.map Prod.fst →
    t ∉ (delList L dl).map Prod.fst
  | [], _, _, _, _, htm => by simp at htm
  | d :: rest, L, t, hnd, h0s, htm => by
      have h0 : d.1 ≠ 0 := h0s d (List.mem_cons_self d rest)
      rw [delList_cons_ne h0]
      rcases List.mem_cons.mp htm with heq | htm2
      · have habs : t ∉ (delOne L d.1).map Prod.fst := by
          rw [heq]
          cases hfind : findIdxL L d.1 with
          | none =>
            unfold delOne
            rw [hfind]
            exact findIdxL_none_not_mem hfind
          | some i => exact delOne_removes hfind hnd
        intro hmem
        exact habs (delList_types_subset rest (delOne L d.1) t hmem)
      · exact delList_removes rest (delOne L d.1) t (delOne_types_nodup L d.1 hnd)
          (fun p hp => h0s p (List.mem_cons_of_mem d hp)) htm2

/-- Setting an entry whose type differs from `p`'s cannot remove the
pair `p` from the list. -/
theorem mem_set_of_type_ne {L : List (Nat × Nat)} {p x : Nat × Nat} {i : Nat}
    (hp : p ∈ L) (hty : (L.getD i (0, 0)).1 ≠ p.1) :
    p ∈ L.set i x := by
  obtain ⟨j, hj, hLj⟩ := List.mem_iff_getElem.mp hp
  have hji : j ≠ i := fun he =>
    hty (by rw [← he, List.getD_eq_getElem _ _ hj, hLj])
  refine List.mem_iff_getElem.mpr ⟨j, by simpa using hj, ?_⟩
  rw [List.getElem_set_ne (fun hh => hji hh.symm)]
  exact hLj

/-- A pair whose type is touched by no later replacement survives the
overwrite-or-append loop. -/
theorem setList_preserves_mem : ∀ (nl L : List (Nat × Nat)) (p : Nat × Nat),
    p ∈ L → (∀ r ∈ nl, r.1 ≠ p.1) → p ∈ setList L nl
  | [], _, _, hp, _ => hp
  | d :: rest, L, p, hp, hne => by
      by_cases h0 : d.1 = 0
      · have heq : setList L (d :: rest) = L := by
          rw [setList, if_pos h0]
        rw [heq]
        exact hp
      · have hdp : d.1 ≠ p.1 := hne d (List.mem_cons_self d rest)
        have hne2 : ∀ r ∈ rest, r.1 ≠ p.1 :=
          fun r hr => hne r (List.mem_cons_of_mem d hr)
        cases hfind : findIdxL L d.1 with
        | some i =>
          rw [setList_cons_found h0 hfind]
          exact setList_preserves_mem rest _ p
            (mem_set_of_type_ne hp (by rw [(findIdxL_some hfind).2]; exact hdp)) hne2
        | none =>
          rw [setList_cons_none h0 hfind]
          exact setList_preserves_mem rest _ p (List.mem_append_left _ hp) hne2

/-- With distinct nonzero replacement types, every replacement pair
appears in the rewritten list. -/
theorem setList_mem_new : ∀ (nl L : List (Nat × Nat)),
    (nl.map Prod.fst).Nodup → (∀ r ∈ nl, r.1 ≠ 0) →
    ∀ p ∈ nl, p ∈ setList L nl
  | [], _, _, _, p, hp => by simp at hp
  | d :: rest, L, hnd, h0s, p, hp => by
      have h0 : d.1 ≠ 0 := h0s d (List.mem_cons_self d rest)
      rw [List.map_cons] at hnd
      have hdrest : d.1 ∉ rest.map Prod.fst := (List.nodup_cons.mp hnd).1
      have hnd2 : (rest.map Prod.fst).Nodup := (List.nodup_cons.mp hnd).2
      have h0s2 : ∀ r ∈ rest, r.1 ≠ 0 :=
        fun r hr => h0s r (List.mem_cons_of_mem d hr)
      rcases List.mem_cons.mp hp with heq | hp2
      · subst heq
        have hner : ∀ r ∈ rest, r.1 ≠ p.1 :=
          fun r hr he => hdrest (he ▸ List.mem_map_of_mem Prod.fst hr)
        cases hfind : findIdxL L p.1 with
        | some i =>
          rw [setList_cons_found h0 hfind]
          refine setList_preserves_mem rest _ p ?_ hner
          have hi := (findIdxL_some hfind).1
          exact List.mem_iff_getElem.mpr
            ⟨i, by simpa using hi, List.getElem_set_self (by simpa using hi)⟩
        | none =>
          rw [setList_cons_none h0 hfind]
          exact setList_preserves_mem rest _ p
            (List.mem_append_right _ (by simp)) hner
      · cases hfind : findIdxL L d.1 with
        | some i =>
          rw [setList_cons_found h0 hfind]
          exact setList_mem_new rest _ hnd2 h0s2 p hp2
        | none =>
          rw [setList_cons_none h0 hfind]
          exact setList_mem_new rest _ hnd2 h0s2 p hp2

/-- A type absent before the overwrite-or-append loop and not among the
replacement types is still absent afterwards. -/
theorem setList_types_not_mem : ∀ (nl L : List (Nat × Nat)) (t : Nat),
    t ∉ L.map Prod.fst → (∀ r ∈ nl, r.1 ≠ t) →
    t ∉ (setList L nl).map Prod.fst
  | [], _, _, hL, _ => hL
  | d :: rest, L, t, hL, hne => by
      by_cases h0 : d.1 = 0
      · have heq : setList L (d :: rest) = L := by
          rw [setList, if_pos h0]
        rw [heq]
        exact hL
      · have hdt : d.1 ≠ t := hne d (List.mem_cons_self d rest)
        have hne2 : ∀ r ∈ rest, r.1 ≠ t :=
          fun r hr => hne r (List.mem_cons_of_mem d hr)
        cases hfind : findIdxL L d.1 with
        | some i =>
          rw [setList_cons_found h0 hfind]
          refine setList_types_not_mem rest _ t ?_ hne2
          rw [map_fst_set_eq L i d.1 d.2 (findIdxL_some hfind).2]
          exact hL
        | none =>
          rw [setList_cons_none h0 hfind]
          refine setList_types_not_mem rest _ t ?_ hne2
          rw [List.map_append]
          intro hmem
          rcases List.mem_append.mp hmem with h1 | h2
          · exact hL h1
          · simp at h2
            exact hdt h2.symm

/-- Counterexample to claim C6 as stated for auxv arrays with repeated
types: with original auxv `[(32, 1), (32, 2)]`, deleting tag 32 removes
only the first match — the rewritten auxv still contains an entry of
type 32 (the swap-with-last step itself refills the freed slot with the
other entry of the same tag). -/
theorem set_auxiliary_values_claim6_counterexample :
    ∃ p : Mem × Nat, set_auxiliary_values cex6Mem 16 0 [] [(32, 0)] 3 = some p
      ∧ wordGet cex6Mem (16 + 16 * 0) = 32
      ∧ wordGet p.1 (16 + p.2 + 16 * 0) = 32
      ∧ wordGet p.1 (16 + p.2 + 16 * 1) = 0 :=
  ⟨_, rfl, rfl, rfl, rfl⟩

/-- Claim C6 (corrected/qualified): on a terminated auxv whose entry
types are distinct and nonzero, with distinct nonzero replacement types
disjoint from the deletion tags, after `set_auxiliary_values` returns:
every replacement (type, value) pair appears among the rewritten
entries, no deletion tag appears (whether or not it was present), and
each single deletion is, up to entry order, the removal of the matched
entry — implemented as replace-by-last plus truncate-by-one. -/
theorem set_auxiliary_values_rewrite
    (m : Mem) (av src fuel : Nat) (newAv delAv L : List (Nat × Nat))
    (hsrc : src % 16 = 0) (hav : av % 8 = 0) (hsa : src ≤ av)
    (hrepr : avRepr m av L)
    (htypes : ∀ e ∈ L, e.1 ≠ 0)
    (hterm0 : wordGet m (av + 16 * L.length) = 0)
    (htermv : wordGet m (av + 16 * L.length + 8) = 0)
    (hfuel : L.length < fuel)
    (hnew0 : ∀ p ∈ newAv, p.1 ≠ 0)
    (hnodup : (newAv.map Prod.fst).Nodup)
    (hLnd : (L.map Prod.fst).Nodup)
    (hdel0 : ∀ d ∈ delAv, d.1 ≠ 0)
    (hdisj : ∀ d ∈ delAv, d.1 ∉ newAv.map Prod.fst)
    (hnowrap : 16 * countNewL (delList L delAv) newAv ≤ src) :
    ∃ m3 dst,
      set_auxiliary_values m av src newAv delAv fuel = some (m3, dst)
      ∧ (∀ p ∈ newAv, ∃ k, k < (setList (delList L delAv) newAv).length
          ∧ wordGet m3 (av + dst - src + 16 * k) = p.1
          ∧ wordGet m3 (av + dst - src + 16 * k + 8) = p.2)
      ∧ (∀ d ∈ delAv, ∀ k, k < (setList (delList L delAv) newAv).length
          → wordGet m3 (av + dst - src + 16 * k) ≠ d.1)
      ∧ (∀ (M : List (Nat × Nat)) (tag i : Nat), findIdxL M tag = some i
          → (delOne M tag).Perm (M.eraseIdx i)) := by
  obtain ⟨m3, h1, h2, h3, h4, h5⟩ :=
    set_auxiliary_values_run m av src fuel newAv delAv L hsrc hav hsa hrepr
      htypes hterm0 htermv hfuel hnew0 hnodup hnowrap
      (delList L delAv) (L.length - (delList L delAv).length)
      (countNewL (delList L delAv) newAv)
      (src + 16 * (L.length - (delList L delAv).length)
        - 16 * countNewL (delList L delAv) newAv)
      (av + 16 * (L.length - (delList L delAv).length)
        - 16 * countNewL (delList L delAv) newAv)
      (setList (delList L delAv) newAv)
      rfl rfl rfl rfl rfl rfl
  have haddr : av + (src + 16 * (L.length - (delList L delAv).length)
        - 16 * countNewL (delList L delAv) newAv) - src
      = av + 16 * (L.length - (delList L delAv).length)
        - 16 * countNewL (delList L delAv) newAv := by
    omega
  refine ⟨m3, _, h1, ?_, ?_, fun M tag i hf => delOne_perm hf⟩
  · intro p hp
    have hpL2 : p ∈ setList (delList L delAv) newAv :=
      setList_mem_new newAv (delList L delAv) hnodup hnew0 p hp
    obtain ⟨k, hk, hkeq⟩ := List.mem_iff_getElem.mp hpL2
    refine ⟨k, hk, ?_, ?_⟩
    · rw [haddr, (h3 k hk).1, List.getD_eq_getElem _ _ hk, hkeq]
    · rw [haddr, (h3 k hk).2, List.getD_eq_getElem _ _ hk, hkeq]
  · intro d hd k hk
    rw [haddr, (h3 k hk).1]
    have habs : d.1 ∉ (setList (delList L delAv) newAv).map Prod.fst := by
      apply setList_types_not_mem
      · exact delList_removes delAv L d.1 hLnd hdel0
          (List.mem_map_of_mem Prod.fst hd)
      · intro r hr he
        exact (hdisj d hd) (he ▸ List.mem_map_of_mem Prod.fst hr)
    intro heq
    apply habs
    rw [← heq, List.getD_eq_getElem _ _ hk]
    exact List.mem_map_of_mem Prod.fst (List.getElem_mem _)

/-- Witness for claim C6's theorem: delete the present tag 21 and add
the fresh pair (25, 99) on the two-entry auxv `[(21, 77), (33, 44)]`. -/
theorem set_auxiliary_values_rewrite_witness :
    ∃ m3 dst,
      set_auxiliary_values w6Mem 32 16 [(25, 99)] [(21, 0)] 3 = some (m3, dst)
      ∧ (∀ p ∈ [((25 : Nat), (99 : Nat))], ∃ k,
          k < (setList (delList [(21, 77), (33, 44)] [(21, 0)]) [(25, 99)]).length
          ∧ wordGet m3 (32 + dst - 16 + 16 * k) = p.1
          ∧ wordGet m3 (32 + dst - 16 + 16 * k + 8) = p.2)
      ∧ (∀ d ∈ [((21 : Nat), (0 : Nat))], ∀ k,
          k < (setList (delList [(21, 77), (33, 44)] [(21, 0)]) [(25, 99)]).length
          → wordGet m3 (32 + dst - 16 + 16 * k) ≠ d.1)
      ∧ (∀ (M : List (Nat × Nat)) (tag i : Nat), findIdxL M tag = some i
          → (delOne M tag).Perm (M.eraseIdx i)) :=
  set_auxiliary_values_rewrite w6Mem 32 16 3 [(25, 99)] [(21, 0)] [(21, 77), (33, 44)]
    (by decide) (by decide) (by decide) (by decide) (by decide) (by decide)
    (by decide) (by decide) (by decide) (by decide) (by decide) (by decide)
    (by decide) (by decide)

end Preloader
